import Mathlib

/-!
# Verification of the AoC shared graph/grid infrastructure

This file gives a shallow embedding, in Lean 4, of the reusable core of the
repository: the de-duplicating `Dictionary` interner (`src/rust/src/dictionary.rs`),
the sparse and dense Cartesian grids (`src/rust/src/coords/spaces/{sparse,dense}.rs`),
and the named-node graph `Web` with its spider-based breadth-first search and
routing caches (`src/rust/src/web.rs`).  Rust `BTreeMap`s are embedded as
key-sorted association lists (so iteration order — which the search algorithms
rely on for their tie-breaking — is preserved), `BTreeSet`s as sorted duplicate
free lists, machine integers as `Int`/`Nat` with explicit reduction modulo
`2 ^ 64` where a cast occurs, and panics/fallible construction as `Option`.
-/

set_option maxHeartbeats 1000000

namespace AocSpec

/-! ## Dictionary (`src/rust/src/dictionary.rs`)

The Rust `Dictionary<T>` keeps `cached : HashMap<Arc<T>, usize>` and
`idents : BTreeMap<usize, Arc<T>>`; identifiers are issued sequentially
(`next_ident = self.len()`) and the structure is append-only.  Since the
ident table is exactly `{0 ↦ v₀, 1 ↦ v₁, …}` in insertion order, the pair of
maps is embedded as the insertion-ordered list of stored contents: the
identifier of a content value is its index in that list. -/

structure Dict (α : Type) where
  entries : List α
deriving DecidableEq

def Dict.empty {α : Type} : Dict α := ⟨[]⟩

/-- `Dictionary::len` (the number of stored items). -/
def Dict.len {α : Type} (d : Dict α) : Nat := d.entries.length

/-- `Dictionary::insert`: return the existing identifier when the content is
already present, otherwise issue `len` as the fresh identifier and append. -/
def Dict.insert {α : Type} [DecidableEq α] (d : Dict α) (v : α) : Nat × Dict α :=
  if v ∈ d.entries then (d.entries.indexOf v, d)
  else (d.entries.length, ⟨d.entries ++ [v]⟩)

/-- `Dictionary::lookup`. -/
def Dict.lookup {α : Type} (d : Dict α) (i : Nat) : Option α := d.entries[i]?

theorem indexOf_append_singleton {α : Type} [DecidableEq α] {v : α} {l : List α}
    (h : v ∉ l) : (l ++ [v]).indexOf v = l.length := by
  induction l with
  | nil => simp [List.indexOf_cons]
  | cons a as ih =>
    have hne : ¬(a = v) := fun hav => h (hav ▸ List.mem_cons_self a as)
    have : (a == v) = false := beq_false_of_ne (fun hav => hne hav)
    simp only [List.cons_append, List.indexOf_cons, this, cond_false]
    rw [ih (fun hm => h (List.mem_cons_of_mem a hm))]
    simp

theorem indexOf_ne_of_ne {α : Type} [DecidableEq α] {v w : α} {l : List α}
    (hv : v ∈ l) (hw : w ∈ l) (hne : v ≠ w) : l.indexOf v ≠ l.indexOf w := by
  intro heq
  have h1 : l.indexOf v < l.length := List.indexOf_lt_length.mpr hv
  have h2 : l.indexOf w < l.length := List.indexOf_lt_length.mpr hw
  have e1 : l.get ⟨l.indexOf v, h1⟩ = v := List.indexOf_get h1
  have e2 : l.get ⟨l.indexOf w, h2⟩ = w := List.indexOf_get h2
  apply hne
  rw [← e1, ← e2]
  congr 1
  exact Fin.ext heq

theorem Dict.insert_of_mem {α : Type} [DecidableEq α] {d : Dict α} {v : α}
    (h : v ∈ d.entries) : d.insert v = (d.entries.indexOf v, d) := by
  simp [Dict.insert, h]

theorem Dict.insert_of_not_mem {α : Type} [DecidableEq α] {d : Dict α} {v : α}
    (h : v ∉ d.entries) : d.insert v = (d.entries.length, ⟨d.entries ++ [v]⟩) := by
  simp [Dict.insert, h]

/-- After one `insert v1`, the identifier of `v1` is its index in the entry
list (and `v1` is present). -/
theorem Dict.insert_mem_indexOf {α : Type} [DecidableEq α] (d : Dict α) (v : α) :
    v ∈ (d.insert v).2.entries ∧
    (d.insert v).2.entries.indexOf v = (d.insert v).1 := by
  by_cases h : v ∈ d.entries
  · rw [Dict.insert_of_mem h]
    exact ⟨h, rfl⟩
  · rw [Dict.insert_of_not_mem h]
    exact ⟨List.mem_append_right _ (List.mem_singleton.mpr rfl),
      indexOf_append_singleton h⟩

/-- C4: inserting the same content twice returns the same identifier and does
not grow the dictionary; distinct content values receive distinct
identifiers.  (`Dictionary::insert`, `src/rust/src/dictionary.rs:48-57`.) -/
theorem C4_dictionary_insert {α : Type} [DecidableEq α] (d : Dict α) (v1 v2 : α) :
    ((d.insert v1).2.insert v1).1 = (d.insert v1).1 ∧
    ((d.insert v1).2.insert v1).2.len = (d.insert v1).2.len ∧
    (v1 ≠ v2 → ((d.insert v1).2.insert v2).1 ≠ (d.insert v1).1) := by
  obtain ⟨hmem, hidx⟩ := Dict.insert_mem_indexOf d v1
  refine ⟨?_, ?_, ?_⟩
  · rw [Dict.insert_of_mem hmem]
    exact hidx
  · rw [Dict.insert_of_mem hmem]
  · intro hne
    by_cases h2 : v2 ∈ (d.insert v1).2.entries
    · rw [Dict.insert_of_mem h2]
      rw [← hidx]
      exact indexOf_ne_of_ne h2 hmem (Ne.symm hne)
    · rw [Dict.insert_of_not_mem h2]
      rw [← hidx]
      intro heq
      exact absurd (heq ▸ List.indexOf_lt_length.mpr hmem) (lt_irrefl _)

/-- Witness for C4 at a concrete dictionary over `Nat`. -/
theorem C4_dictionary_insert_witness :
    (3 : Nat) ≠ 7 ∧
    ((Dict.empty.insert 3).2.insert 7).1 ≠ (Dict.empty.insert (3 : Nat)).1 :=
  ⟨by decide, (C4_dictionary_insert Dict.empty 3 7).2.2 (by decide)⟩

/-! ## Coordinates and the sparse grid (`src/rust/src/coords/`)

`Cartesian2DPoint<I>` is embedded with `I := Int` (the Rust code is generic
over signed machine integers; the grid operations used by the claims perform
no overflowing arithmetic).  The `BTreeMap`s backing `spaces::sparse::Cartesian2D`
are embedded as strictly-key-sorted association lists so that iteration order
is preserved. -/

structure Pt where
  x : Int
  y : Int
deriving DecidableEq

/-- `Cartesian2DPoint::min_unifying`. -/
def Pt.minUnifying (p q : Pt) : Pt := ⟨min p.x q.x, min p.y q.y⟩

/-- `Cartesian2DPoint::max_unifying`. -/
def Pt.maxUnifying (p q : Pt) : Pt := ⟨max p.x q.x, max p.y q.y⟩

/-- `BTreeMap::get`. -/
def btGet {κ β : Type} [LinearOrder κ] (k : κ) : List (κ × β) → Option β
  | [] => none
  | (k', v) :: rest => if k = k' then some v else btGet k rest

/-- `BTreeMap::entry(k).or_insert_with(f)`: keep an existing binding, place a
fresh one at its sorted position otherwise. -/
def btGetOrInsert {κ β : Type} [LinearOrder κ] (k : κ) (f : Unit → β) : List (κ × β) → List (κ × β)
  | [] => [(k, f ())]
  | (k', v) :: rest =>
    if k < k' then (k, f ()) :: (k', v) :: rest
    else if k = k' then (k', v) :: rest
    else (k', v) :: btGetOrInsert k f rest

/-- `BTreeMap::entry(k).or_default()` followed by an in-place update of the
entry: update an existing binding with `upd`, otherwise insert `upd d` at the
sorted position. -/
def btModify {κ β : Type} [LinearOrder κ] (k : κ) (d : β) (upd : β → β) : List (κ × β) → List (κ × β)
  | [] => [(k, upd d)]
  | (k', v) :: rest =>
    if k < k' then (k, upd d) :: (k', v) :: rest
    else if k = k' then (k', upd v) :: rest
    else (k', v) :: btModify k d upd rest

/-- `coords::spaces::sparse::Cartesian2D<I, T>`: row map plus the incrementally
maintained bounding box. -/
structure Sparse (α : Type) where
  rows : List (Int × List (Int × α))
  bounds : Option (Pt × Pt)

def Sparse.empty {α : Type} : Sparse α := ⟨[], none⟩

/-- `Cartesian2D::get`. -/
def Sparse.get {α : Type} (g : Sparse α) (p : Pt) : Option α :=
  match btGet p.y g.rows with
  | some row => btGet p.x row
  | none => none

/-- Membership test of a point in an optional bounding box (the body of
`Cartesian2D::encloses`). -/
def inBox (b : Option (Pt × Pt)) (p : Pt) : Bool :=
  match b with
  | none => false
  | some (mn, mx) =>
    decide (mn.x ≤ p.x ∧ p.x ≤ mx.x) && decide (mn.y ≤ p.y ∧ p.y ≤ mx.y)

/-- `Cartesian2D::encloses`. -/
def Sparse.encloses {α : Type} (g : Sparse α) (p : Pt) : Bool := inBox g.bounds p

/-- The bounds update performed at the end of `Cartesian2D::get_or_insert_with`. -/
def unifyBounds (b : Option (Pt × Pt)) (p : Pt) : Option (Pt × Pt) :=
  match b with
  | none => some (p, p)
  | some (mn, mx) => some (p.minUnifying mn, p.maxUnifying mx)

/-- `Cartesian2D::get_or_insert_with` (the state part: the nested entry
insertion followed by the unconditional bounds unification). -/
def Sparse.getOrInsertWith {α : Type} (g : Sparse α) (p : Pt) (f : Unit → α) : Sparse α :=
  { rows := btModify p.y [] (btGetOrInsert p.x f) g.rows
    bounds := unifyBounds g.bounds p }

/-- `Cartesian2D::insert` delegates to `get_or_insert_with`. -/
def Sparse.insert {α : Type} (g : Sparse α) (p : Pt) (v : α) : Sparse α :=
  g.getOrInsertWith p (fun _ => v)

/-- The stream of stored points produced by `Cartesian2D::iter`, in row-major
iteration order. -/
def Sparse.points {α : Type} (g : Sparse α) : List Pt :=
  g.rows.flatMap (fun yr => yr.2.map (fun xv => Pt.mk xv.1 yr.1))

/-- One step of the min/max scan in `Cartesian2D::dimensions`. -/
def minmaxStep (mm : Pt × Pt) (q : Pt) : Pt × Pt :=
  (⟨min mm.1.x q.x, min mm.1.y q.y⟩, ⟨max mm.2.x q.x, max mm.2.y q.y⟩)

/-- `Cartesian2D::dimensions`: a full scan over the stored points. -/
def Sparse.dimensions {α : Type} (g : Sparse α) : Option (Pt × Pt) :=
  match g.points with
  | [] => none
  | p :: ps => some (ps.foldl minmaxStep (p, p))

/-- A grid built by a sequence of `insert` calls starting from the empty grid. -/
def buildSparse {α : Type} (l : List (Pt × α)) : Sparse α :=
  l.foldl (fun g pv => g.insert pv.1 pv.2) Sparse.empty

theorem inBox_unify_self (b : Option (Pt × Pt)) (p : Pt) :
    inBox (unifyBounds b p) p = true := by
  cases b with
  | none => simp [unifyBounds, inBox]
  | some mm =>
    obtain ⟨mn, mx⟩ := mm
    simp only [unifyBounds, inBox, Pt.minUnifying, Pt.maxUnifying,
      Bool.and_eq_true, decide_eq_true_eq]
    exact ⟨⟨min_le_left _ _, le_max_left _ _⟩, ⟨min_le_left _ _, le_max_left _ _⟩⟩

theorem inBox_unify_mono (b : Option (Pt × Pt)) (p q : Pt)
    (h : inBox b q = true) : inBox (unifyBounds b p) q = true := by
  cases b with
  | none => simp [inBox] at h
  | some mm =>
    obtain ⟨mn, mx⟩ := mm
    simp only [unifyBounds, inBox, Pt.minUnifying, Pt.maxUnifying,
      Bool.and_eq_true, decide_eq_true_eq] at h ⊢
    obtain ⟨⟨h1, h2⟩, h3, h4⟩ := h
    exact ⟨⟨le_trans (min_le_right _ _) h1, le_trans h2 (le_max_right _ _)⟩,
      ⟨le_trans (min_le_right _ _) h3, le_trans h4 (le_max_right _ _)⟩⟩

theorem unifyBounds_of_inBox {b : Option (Pt × Pt)} {p : Pt}
    (h : inBox b p = true) : unifyBounds b p = b := by
  cases b with
  | none => simp [inBox] at h
  | some mm =>
    obtain ⟨mn, mx⟩ := mm
    simp only [inBox, Bool.and_eq_true, decide_eq_true_eq] at h
    obtain ⟨⟨h1, h2⟩, h3, h4⟩ := h
    simp only [unifyBounds, Pt.minUnifying, Pt.maxUnifying, Option.some.injEq,
      Prod.mk.injEq]
    constructor
    · cases mn; simp_all [min_eq_right]
    · cases mx; simp_all [max_eq_right]

theorem encloses_insert {α : Type} (g : Sparse α) (p : Pt) (v : α) (q : Pt) :
    (g.insert p v).encloses q = inBox (unifyBounds g.bounds p) q := rfl

theorem buildList_encloses {α : Type} (l : List (Pt × α)) :
    ∀ g : Sparse α,
      (∀ q, g.encloses q = true →
        (l.foldl (fun g pv => g.insert pv.1 pv.2) g).encloses q = true) ∧
      (∀ q ∈ l.map Prod.fst,
        (l.foldl (fun g pv => g.insert pv.1 pv.2) g).encloses q = true) := by
  induction l with
  | nil => intro g; exact ⟨fun q hq => hq, by simp⟩
  | cons pv rest ih =>
    intro g
    constructor
    · intro q hq
      refine (ih (g.insert pv.1 pv.2)).1 q ?_
      rw [encloses_insert]
      exact inBox_unify_mono _ _ _ hq
    · intro q hq
      simp only [List.map_cons, List.mem_cons] at hq
      rcases hq with hq | hq
      · subst hq
        refine (ih (g.insert pv.1 pv.2)).1 _ ?_
        rw [encloses_insert]
        exact inBox_unify_self _ _
      · exact (ih (g.insert pv.1 pv.2)).2 q hq

theorem btGetOrInsert_nil {κ β : Type} [LinearOrder κ] (k : κ) (f : Unit → β) :
    btGetOrInsert k f [] = [(k, f ())] := rfl

theorem btGetOrInsert_cons_lt {κ β : Type} [LinearOrder κ] {k k' : κ} (f : Unit → β) (v : β)
    (rest : List (κ × β)) (h : k < k') :
    btGetOrInsert k f ((k', v) :: rest) = (k, f ()) :: (k', v) :: rest := by
  simp [btGetOrInsert, h]

theorem btGetOrInsert_cons_eq {κ β : Type} [LinearOrder κ] (k : κ) (f : Unit → β) (v : β)
    (rest : List (κ × β)) :
    btGetOrInsert k f ((k, v) :: rest) = (k, v) :: rest := by
  simp [btGetOrInsert, lt_irrefl]

theorem btGetOrInsert_cons_gt {κ β : Type} [LinearOrder κ] {k k' : κ} (f : Unit → β) (v : β)
    (rest : List (κ × β)) (h : k' < k) :
    btGetOrInsert k f ((k', v) :: rest) = (k', v) :: btGetOrInsert k f rest := by
  simp [btGetOrInsert, not_lt_of_gt h, ne_of_gt h]

theorem btModify_nil {κ β : Type} [LinearOrder κ] (k : κ) (d : β) (upd : β → β) :
    btModify k d upd [] = [(k, upd d)] := rfl

theorem btModify_cons_lt {κ β : Type} [LinearOrder κ] {k k' : κ} (d : β) (upd : β → β) (v : β)
    (rest : List (κ × β)) (h : k < k') :
    btModify k d upd ((k', v) :: rest) = (k, upd d) :: (k', v) :: rest := by
  simp [btModify, h]

theorem btModify_cons_eq {κ β : Type} [LinearOrder κ] (k : κ) (d : β) (upd : β → β) (v : β)
    (rest : List (κ × β)) :
    btModify k d upd ((k, v) :: rest) = (k, upd v) :: rest := by
  simp [btModify, lt_irrefl]

theorem btModify_cons_gt {κ β : Type} [LinearOrder κ] {k k' : κ} (d : β) (upd : β → β) (v : β)
    (rest : List (κ × β)) (h : k' < k) :
    btModify k d upd ((k', v) :: rest) = (k', v) :: btModify k d upd rest := by
  simp [btModify, not_lt_of_gt h, ne_of_gt h]

theorem mem_map_fst_btGetOrInsert {κ β : Type} [LinearOrder κ] (k : κ) (f : Unit → β)
    (l : List (κ × β)) (x : κ) :
    (x ∈ (btGetOrInsert k f l).map Prod.fst) ↔ x = k ∨ x ∈ l.map Prod.fst := by
  induction l with
  | nil => simp [btGetOrInsert_nil]
  | cons kv rest ih =>
    obtain ⟨k', v⟩ := kv
    rcases lt_trichotomy k k' with h | h | h
    · rw [btGetOrInsert_cons_lt f v rest h]
      simp only [List.map_cons, List.mem_cons]
    · subst h
      rw [btGetOrInsert_cons_eq]
      simp only [List.map_cons, List.mem_cons]
      tauto
    · rw [btGetOrInsert_cons_gt f v rest h]
      simp only [List.map_cons, List.mem_cons, ih]
      tauto

/-- The point stream over a raw row structure (used to induct on rows). -/
def rowPoints {α : Type} (rows : List (Int × List (Int × α))) : List Pt :=
  rows.flatMap (fun yr => yr.2.map (fun xv => Pt.mk xv.1 yr.1))

theorem points_eq_rowPoints {α : Type} (g : Sparse α) :
    g.points = rowPoints g.rows := rfl

theorem rowPoints_cons {α : Type} (yr : Int × List (Int × α))
    (rest : List (Int × List (Int × α))) :
    rowPoints (yr :: rest) =
      yr.2.map (fun xv => Pt.mk xv.1 yr.1) ++ rowPoints rest := by
  simp [rowPoints]

theorem mem_map_mkPt {α : Type} (row : List (Int × α)) (k : Int) (q : Pt) :
    q ∈ row.map (fun xv => Pt.mk xv.1 k) ↔ q.y = k ∧ q.x ∈ row.map Prod.fst := by
  simp only [List.mem_map]
  constructor
  · rintro ⟨xv, hxv, rfl⟩
    exact ⟨rfl, xv, hxv, rfl⟩
  · rintro ⟨hy, xv, hxv, hx⟩
    refine ⟨xv, hxv, ?_⟩
    cases q
    cases hy
    cases hx
    rfl

theorem mem_rowPoints_modify {α : Type} (px py : Int) (f : Unit → α)
    (rows : List (Int × List (Int × α))) (q : Pt) :
    q ∈ rowPoints (btModify py [] (btGetOrInsert px f) rows) ↔
      q = ⟨px, py⟩ ∨ q ∈ rowPoints rows := by
  induction rows with
  | nil =>
    rw [btModify_nil, btGetOrInsert_nil, rowPoints_cons]
    simp only [rowPoints, List.flatMap_nil, List.append_nil, List.map_cons,
      List.map_nil, List.mem_singleton, List.not_mem_nil, or_false]
  | cons kr rest ih =>
    obtain ⟨k, row⟩ := kr
    rcases lt_trichotomy py k with h1 | h1 | h1
    · rw [btModify_cons_lt _ _ _ _ h1, btGetOrInsert_nil, rowPoints_cons,
        rowPoints_cons]
      simp only [List.map_cons, List.map_nil, List.mem_append,
        List.mem_singleton, List.not_mem_nil, or_false, List.mem_cons]
    · subst h1
      rw [btModify_cons_eq, rowPoints_cons, rowPoints_cons]
      simp only [List.mem_append, mem_map_mkPt, mem_map_fst_btGetOrInsert]
      constructor
      · rintro (⟨hy, hx | hx⟩ | h)
        · left; cases q; cases hy; cases hx; rfl
        · right; left; exact ⟨hy, hx⟩
        · right; right; exact h
      · rintro (rfl | ⟨hy, hx⟩ | h)
        · left; exact ⟨rfl, Or.inl rfl⟩
        · left; exact ⟨hy, Or.inr hx⟩
        · right; exact h
    · rw [btModify_cons_gt _ _ _ _ h1, rowPoints_cons, rowPoints_cons]
      simp only [List.mem_append, ih]
      tauto

theorem mem_points_getOrInsert {α : Type} (g : Sparse α) (p : Pt) (f : Unit → α)
    (q : Pt) :
    q ∈ (g.getOrInsertWith p f).points ↔ q = p ∨ q ∈ g.points := by
  rw [points_eq_rowPoints, points_eq_rowPoints]
  show q ∈ rowPoints (btModify p.y [] (btGetOrInsert p.x f) g.rows) ↔ _
  rw [mem_rowPoints_modify]

theorem mem_points_build {α : Type} (l : List (Pt × α)) (q : Pt) :
    q ∈ (buildSparse l).points ↔ q ∈ l.map Prod.fst := by
  suffices h : ∀ g : Sparse α,
      (q ∈ (l.foldl (fun g pv => g.insert pv.1 pv.2) g).points ↔
        q ∈ l.map Prod.fst ∨ q ∈ g.points) by
    have := h Sparse.empty
    simpa [Sparse.empty, Sparse.points, rowPoints] using this
  induction l with
  | nil => intro g; simp
  | cons pv rest ih =>
    intro g
    simp only [List.foldl_cons, List.map_cons, List.mem_cons]
    rw [ih (g.insert pv.1 pv.2)]
    rw [show g.insert pv.1 pv.2 = g.getOrInsertWith pv.1 (fun _ => pv.2) from rfl]
    rw [mem_points_getOrInsert]
    tauto

theorem foldl_minmaxStep (ps : List Pt) (a b : Pt) :
    ps.foldl minmaxStep (a, b) =
      (⟨(ps.map Pt.x).foldl min a.x, (ps.map Pt.y).foldl min a.y⟩,
       ⟨(ps.map Pt.x).foldl max b.x, (ps.map Pt.y).foldl max b.y⟩) := by
  induction ps generalizing a b with
  | nil => rfl
  | cons p ps ih =>
    show ps.foldl minmaxStep (minmaxStep (a, b) p) = _
    rw [show minmaxStep (a, b) p =
      ((⟨min a.x p.x, min a.y p.y⟩ : Pt), (⟨max b.x p.x, max b.y p.y⟩ : Pt))
      from rfl]
    rw [ih]
    simp only [List.map_cons, List.foldl_cons]

theorem foldl_min_le_init (l : List Int) (a : Int) : l.foldl min a ≤ a := by
  induction l generalizing a with
  | nil => exact le_refl a
  | cons x xs ih => exact le_trans (ih (min a x)) (min_le_left a x)

theorem foldl_min_le_mem (l : List Int) (a v : Int) (hv : v ∈ l) :
    l.foldl min a ≤ v := by
  induction l generalizing a with
  | nil => exact absurd hv (List.not_mem_nil v)
  | cons x xs ih =>
    rcases List.mem_cons.mp hv with rfl | hv'
    · exact le_trans (foldl_min_le_init xs (min a v)) (min_le_right a v)
    · exact ih (min a x) hv'

theorem foldl_min_mem (l : List Int) (a : Int) :
    l.foldl min a = a ∨ l.foldl min a ∈ l := by
  induction l generalizing a with
  | nil => exact Or.inl rfl
  | cons x xs ih =>
    rcases ih (min a x) with h | h
    · rcases min_choice a x with hc | hc
      · exact Or.inl (by rw [List.foldl_cons, h, hc])
      · exact Or.inr (by rw [List.foldl_cons, h, hc]; exact List.mem_cons_self x xs)
    · exact Or.inr (List.mem_cons_of_mem x h)

theorem foldl_max_ge_init (l : List Int) (a : Int) : a ≤ l.foldl max a := by
  induction l generalizing a with
  | nil => exact le_refl a
  | cons x xs ih => exact le_trans (le_max_left a x) (ih (max a x))

theorem foldl_max_ge_mem (l : List Int) (a v : Int) (hv : v ∈ l) :
    v ≤ l.foldl max a := by
  induction l generalizing a with
  | nil => exact absurd hv (List.not_mem_nil v)
  | cons x xs ih =>
    rcases List.mem_cons.mp hv with rfl | hv'
    · exact le_trans (le_max_right a v) (foldl_max_ge_init xs (max a v))
    · exact ih (max a x) hv'

theorem foldl_max_mem (l : List Int) (a : Int) :
    l.foldl max a = a ∨ l.foldl max a ∈ l := by
  induction l generalizing a with
  | nil => exact Or.inl rfl
  | cons x xs ih =>
    rcases ih (max a x) with h | h
    · rcases max_choice a x with hc | hc
      · exact Or.inl (by rw [List.foldl_cons, h, hc])
      · exact Or.inr (by rw [List.foldl_cons, h, hc]; exact List.mem_cons_self x xs)
    · exact Or.inr (List.mem_cons_of_mem x h)

/-- `dimensions` on a non-empty grid yields the componentwise extrema of the
stored points: each component of the returned minimum (maximum) is attained by
a stored point and bounds every stored point from below (above). -/
theorem Sparse.dimensions_spec {α : Type} (g : Sparse α) (hne : g.points ≠ []) :
    ∃ mn mx, g.dimensions = some (mn, mx)
      ∧ (mn.x ∈ g.points.map Pt.x ∧ ∀ v ∈ g.points.map Pt.x, mn.x ≤ v)
      ∧ (mn.y ∈ g.points.map Pt.y ∧ ∀ v ∈ g.points.map Pt.y, mn.y ≤ v)
      ∧ (mx.x ∈ g.points.map Pt.x ∧ ∀ v ∈ g.points.map Pt.x, v ≤ mx.x)
      ∧ (mx.y ∈ g.points.map Pt.y ∧ ∀ v ∈ g.points.map Pt.y, v ≤ mx.y) := by
  obtain ⟨p0, ps, hp⟩ := List.exists_cons_of_ne_nil hne
  have hd : g.dimensions = some (ps.foldl minmaxStep (p0, p0)) := by
    simp only [Sparse.dimensions, hp]
  rw [foldl_minmaxStep] at hd
  refine ⟨_, _, hd, ⟨?_, ?_⟩, ⟨?_, ?_⟩, ⟨?_, ?_⟩, ⟨?_, ?_⟩⟩ <;>
    rw [hp] <;> simp only [List.map_cons]
  · rcases foldl_min_mem (ps.map Pt.x) p0.x with h | h
    · rw [h]; exact List.mem_cons_self _ _
    · exact List.mem_cons_of_mem _ h
  · intro v hv
    rcases List.mem_cons.mp hv with rfl | hv'
    · exact foldl_min_le_init _ _
    · exact foldl_min_le_mem _ _ _ hv'
  · rcases foldl_min_mem (ps.map Pt.y) p0.y with h | h
    · rw [h]; exact List.mem_cons_self _ _
    · exact List.mem_cons_of_mem _ h
  · intro v hv
    rcases List.mem_cons.mp hv with rfl | hv'
    · exact foldl_min_le_init _ _
    · exact foldl_min_le_mem _ _ _ hv'
  · rcases foldl_max_mem (ps.map Pt.x) p0.x with h | h
    · rw [h]; exact List.mem_cons_self _ _
    · exact List.mem_cons_of_mem _ h
  · intro v hv
    rcases List.mem_cons.mp hv with rfl | hv'
    · exact foldl_max_ge_init _ _
    · exact foldl_max_ge_mem _ _ _ hv'
  · rcases foldl_max_mem (ps.map Pt.y) p0.y with h | h
    · rw [h]; exact List.mem_cons_self _ _
    · exact List.mem_cons_of_mem _ h
  · intro v hv
    rcases List.mem_cons.mp hv with rfl | hv'
    · exact foldl_max_ge_init _ _
    · exact foldl_max_ge_mem _ _ _ hv'

/-- The three inserts of concrete end-to-end scenario B. -/
def scenarioB : List (Pt × Unit) :=
  [(⟨0, 0⟩, ()), (⟨2, 0⟩, ()), (⟨0, 3⟩, ())]

/-- C5: after any non-empty sequence of inserts into a fresh sparse grid,
every inserted point is enclosed by the maintained bounding box, and
`dimensions` returns the componentwise minima and maxima over the inserted
points; in particular inserting `(0,0)`, `(2,0)`, `(0,3)` yields dimensions
`((0,0), (2,3))`.  (`Cartesian2D::get_or_insert_with` and
`Cartesian2D::dimensions`, `src/rust/src/coords/spaces/sparse.rs`.) -/
theorem C5_sparse_bounding {α : Type} (l : List (Pt × α)) (hl : l ≠ []) :
    ((∀ p ∈ l.map Prod.fst, (buildSparse l).encloses p = true) ∧
     ∃ mn mx, (buildSparse l).dimensions = some (mn, mx)
       ∧ (mn.x ∈ l.map (fun q => q.1.x) ∧ ∀ v ∈ l.map (fun q => q.1.x), mn.x ≤ v)
       ∧ (mn.y ∈ l.map (fun q => q.1.y) ∧ ∀ v ∈ l.map (fun q => q.1.y), mn.y ≤ v)
       ∧ (mx.x ∈ l.map (fun q => q.1.x) ∧ ∀ v ∈ l.map (fun q => q.1.x), v ≤ mx.x)
       ∧ (mx.y ∈ l.map (fun q => q.1.y) ∧ ∀ v ∈ l.map (fun q => q.1.y), v ≤ mx.y)) ∧
    (buildSparse scenarioB).dimensions = some (⟨0, 0⟩, ⟨2, 3⟩) := by
  refine ⟨⟨fun p hp => (buildList_encloses l Sparse.empty).2 p hp, ?_⟩, by decide⟩
  have hxmem : ∀ v : Int,
      v ∈ (buildSparse l).points.map Pt.x ↔ v ∈ l.map (fun q => q.1.x) := by
    intro v
    simp only [List.mem_map]
    constructor
    · rintro ⟨q, hq, rfl⟩
      obtain ⟨qq, hqq, rfl⟩ := List.mem_map.mp ((mem_points_build l q).mp hq)
      exact ⟨qq, hqq, rfl⟩
    · rintro ⟨qq, hqq, rfl⟩
      exact ⟨qq.1, (mem_points_build l qq.1).mpr (List.mem_map_of_mem _ hqq), rfl⟩
  have hymem : ∀ v : Int,
      v ∈ (buildSparse l).points.map Pt.y ↔ v ∈ l.map (fun q => q.1.y) := by
    intro v
    simp only [List.mem_map]
    constructor
    · rintro ⟨q, hq, rfl⟩
      obtain ⟨qq, hqq, rfl⟩ := List.mem_map.mp ((mem_points_build l q).mp hq)
      exact ⟨qq, hqq, rfl⟩
    · rintro ⟨qq, hqq, rfl⟩
      exact ⟨qq.1, (mem_points_build l qq.1).mpr (List.mem_map_of_mem _ hqq), rfl⟩
  have hne : (buildSparse l).points ≠ [] := by
    obtain ⟨pv, rest, rfl⟩ := List.exists_cons_of_ne_nil hl
    have : pv.1 ∈ (buildSparse (pv :: rest)).points :=
      (mem_points_build _ _).mpr (by simp)
    exact List.ne_nil_of_mem this
  obtain ⟨mn, mx, hd, ⟨hx1, hx2⟩, ⟨hy1, hy2⟩, ⟨hX1, hX2⟩, ⟨hY1, hY2⟩⟩ :=
    Sparse.dimensions_spec (buildSparse l) hne
  exact ⟨mn, mx, hd,
    ⟨(hxmem mn.x).mp hx1, fun v hv => hx2 v ((hxmem v).mpr hv)⟩,
    ⟨(hymem mn.y).mp hy1, fun v hv => hy2 v ((hymem v).mpr hv)⟩,
    ⟨(hxmem mx.x).mp hX1, fun v hv => hX2 v ((hxmem v).mpr hv)⟩,
    ⟨(hymem mx.y).mp hY1, fun v hv => hY2 v ((hymem v).mpr hv)⟩⟩

/-- Witness for C5 at a concrete insert sequence. -/
theorem C5_sparse_bounding_witness :
    ([((⟨1, 2⟩ : Pt), (5 : Nat))] ≠ []) ∧
    (∀ p ∈ [((⟨1, 2⟩ : Pt), (5 : Nat))].map Prod.fst,
      (buildSparse [((⟨1, 2⟩ : Pt), (5 : Nat))]).encloses p = true) :=
  ⟨by decide, (C5_sparse_bounding [((⟨1, 2⟩ : Pt), (5 : Nat))] (by decide)).1.1⟩

/-- Strictly increasing keys — the `BTreeMap` representation invariant. -/
def SortedFst {κ β : Type} [LinearOrder κ] (l : List (κ × β)) : Prop :=
  l.Pairwise (fun a b => a.1 < b.1)

/-- The full representation invariant of the sparse grid storage. -/
def SortedRows {α : Type} (rows : List (Int × List (Int × α))) : Prop :=
  SortedFst rows ∧ ∀ r ∈ rows, SortedFst r.2

theorem btGet_mem {κ β : Type} [LinearOrder κ] {k : κ} {l : List (κ × β)} {v : β}
    (h : btGet k l = some v) : (k, v) ∈ l := by
  induction l with
  | nil => exact absurd h (by simp [btGet])
  | cons kv rest ih =>
    obtain ⟨k', v'⟩ := kv
    by_cases hk : k = k'
    · subst hk
      rw [btGet, if_pos rfl] at h
      cases h
      exact List.mem_cons_self _ _
    · rw [btGet, if_neg hk] at h
      exact List.mem_cons_of_mem _ (ih h)

theorem btGet_none_of_forall_lt {κ β : Type} [LinearOrder κ] {k : κ} {l : List (κ × β)}
    (h : ∀ e ∈ l, k < e.1) : btGet k l = none := by
  induction l with
  | nil => rfl
  | cons kv rest ih =>
    rw [btGet, if_neg (ne_of_lt (h kv (List.mem_cons_self _ _)))]
    exact ih (fun e he => h e (List.mem_cons_of_mem _ he))

theorem btGetOrInsert_of_get {κ β : Type} [LinearOrder κ] {k : κ} (f : Unit → β)
    {l : List (κ × β)} (hs : SortedFst l) {v : β}
    (hget : btGet k l = some v) : btGetOrInsert k f l = l := by
  induction l with
  | nil => exact absurd hget (by simp [btGet])
  | cons kv rest ih =>
    obtain ⟨k', v'⟩ := kv
    rcases lt_trichotomy k k' with h1 | h1 | h1
    · exfalso
      have hrest : btGet k rest = none :=
        btGet_none_of_forall_lt (fun e he =>
          lt_trans h1 ((List.pairwise_cons.mp hs).1 e he))
      rw [btGet, if_neg (ne_of_lt h1), hrest] at hget
      exact Option.noConfusion hget
    · subst h1
      exact btGetOrInsert_cons_eq k f v' rest
    · rw [btGetOrInsert_cons_gt f v' rest h1]
      rw [btGet, if_neg (ne_of_gt h1)] at hget
      rw [ih (List.pairwise_cons.mp hs).2 hget]

theorem btModify_of_get_fixed {κ β : Type} [LinearOrder κ] {k : κ} (d : β) (upd : β → β)
    {l : List (κ × β)} (hs : SortedFst l) {v : β}
    (hget : btGet k l = some v) (hfix : upd v = v) : btModify k d upd l = l := by
  induction l with
  | nil => exact absurd hget (by simp [btGet])
  | cons kv rest ih =>
    obtain ⟨k', v'⟩ := kv
    rcases lt_trichotomy k k' with h1 | h1 | h1
    · exfalso
      have hrest : btGet k rest = none :=
        btGet_none_of_forall_lt (fun e he =>
          lt_trans h1 ((List.pairwise_cons.mp hs).1 e he))
      rw [btGet, if_neg (ne_of_lt h1), hrest] at hget
      exact Option.noConfusion hget
    · subst h1
      rw [btGet, if_pos rfl] at hget
      cases hget
      rw [btModify_cons_eq, hfix]
    · rw [btModify_cons_gt d upd v' rest h1]
      rw [btGet, if_neg (ne_of_gt h1)] at hget
      rw [ih (List.pairwise_cons.mp hs).2 hget]

/-- Inserting at an already-stored point leaves the row storage untouched
(`insert` delegates to `get_or_insert_with`, which keeps an occupied entry). -/
theorem Sparse.insert_rows_of_get {α : Type} (g : Sparse α) (p : Pt) {v : α}
    (w : α) (hs : SortedRows g.rows) (hget : g.get p = some v) :
    (g.insert p w).rows = g.rows := by
  rw [Sparse.get] at hget
  rcases hrow : btGet p.y g.rows with _ | row
  · rw [hrow] at hget; exact Option.noConfusion hget
  · rw [hrow] at hget
    have hrow_sorted : SortedFst row := hs.2 _ (btGet_mem hrow)
    show btModify p.y [] (btGetOrInsert p.x (fun _ => w)) g.rows = g.rows
    exact btModify_of_get_fixed _ _ hs.1 hrow
      (btGetOrInsert_of_get _ hrow_sorted hget)

theorem btGetOrInsert_sortedFst {κ β : Type} [LinearOrder κ] (k : κ) (f : Unit → β)
    {l : List (κ × β)} (hs : SortedFst l) :
    SortedFst (btGetOrInsert k f l) := by
  induction l with
  | nil => simp [btGetOrInsert_nil, SortedFst]
  | cons kv rest ih =>
    obtain ⟨k', v⟩ := kv
    obtain ⟨hhead, htail⟩ := List.pairwise_cons.mp hs
    rcases lt_trichotomy k k' with h1 | h1 | h1
    · rw [btGetOrInsert_cons_lt f v rest h1]
      exact List.pairwise_cons.mpr ⟨fun e he => by
        rcases List.mem_cons.mp he with rfl | he'
        · exact h1
        · exact lt_trans h1 (hhead e he'), hs⟩
    · subst h1
      rw [btGetOrInsert_cons_eq]
      exact hs
    · rw [btGetOrInsert_cons_gt f v rest h1]
      refine List.pairwise_cons.mpr ⟨fun e he => ?_, ih htail⟩
      have : e.1 = k ∨ e.1 ∈ rest.map Prod.fst :=
        (mem_map_fst_btGetOrInsert k f rest e.1).mp (List.mem_map_of_mem _ he)
      rcases this with h' | h'
      · rw [h']; exact h1
      · obtain ⟨e', he', hfst⟩ := List.mem_map.mp h'
        rw [← hfst]
        exact hhead e' he'

theorem mem_map_fst_btModify {κ β : Type} [LinearOrder κ] (k : κ) (d : β) (upd : β → β)
    (l : List (κ × β)) (x : κ) :
    (x ∈ (btModify k d upd l).map Prod.fst) ↔ x = k ∨ x ∈ l.map Prod.fst := by
  induction l with
  | nil => simp [btModify_nil]
  | cons kv rest ih =>
    obtain ⟨k', v⟩ := kv
    rcases lt_trichotomy k k' with h | h | h
    · rw [btModify_cons_lt d upd v rest h]
      simp only [List.map_cons, List.mem_cons]
    · subst h
      rw [btModify_cons_eq]
      simp only [List.map_cons, List.mem_cons]
      tauto
    · rw [btModify_cons_gt d upd v rest h]
      simp only [List.map_cons, List.mem_cons, ih]
      tauto

theorem btModify_sortedFst {κ β : Type} [LinearOrder κ] (k : κ) (d : β) (upd : β → β)
    {l : List (κ × β)} (hs : SortedFst l) :
    SortedFst (btModify k d upd l) := by
  induction l with
  | nil => simp [btModify_nil, SortedFst]
  | cons kv rest ih =>
    obtain ⟨k', v⟩ := kv
    obtain ⟨hhead, htail⟩ := List.pairwise_cons.mp hs
    rcases lt_trichotomy k k' with h1 | h1 | h1
    · rw [btModify_cons_lt d upd v rest h1]
      exact List.pairwise_cons.mpr ⟨fun e he => by
        rcases List.mem_cons.mp he with rfl | he'
        · exact h1
        · exact lt_trans h1 (hhead e he'), hs⟩
    · subst h1
      rw [btModify_cons_eq]
      exact List.pairwise_cons.mpr ⟨hhead, htail⟩
    · rw [btModify_cons_gt d upd v rest h1]
      refine List.pairwise_cons.mpr ⟨fun e he => ?_, ih htail⟩
      have : e.1 = k ∨ e.1 ∈ rest.map Prod.fst :=
        (mem_map_fst_btModify k d upd rest e.1).mp (List.mem_map_of_mem _ he)
      rcases this with h' | h'
      · rw [h']; exact h1
      · obtain ⟨e', he', hfst⟩ := List.mem_map.mp h'
        rw [← hfst]
        exact hhead e' he'

theorem mem_btModify {κ β : Type} [LinearOrder κ] {k : κ} {d : β} {upd : β → β}
    {l : List (κ × β)} {r : κ × β} (hr : r ∈ btModify k d upd l) :
    r ∈ l ∨ r.2 = upd d ∨ ∃ v, (k, v) ∈ l ∧ r.2 = upd v := by
  induction l with
  | nil =>
    rw [btModify_nil] at hr
    rcases List.mem_singleton.mp hr with rfl
    exact Or.inr (Or.inl rfl)
  | cons kv rest ih =>
    obtain ⟨k', v⟩ := kv
    rcases lt_trichotomy k k' with h1 | h1 | h1
    · rw [btModify_cons_lt d upd v rest h1] at hr
      rcases List.mem_cons.mp hr with rfl | hr'
      · exact Or.inr (Or.inl rfl)
      · exact Or.inl hr'
    · subst h1
      rw [btModify_cons_eq] at hr
      rcases List.mem_cons.mp hr with rfl | hr'
      · exact Or.inr (Or.inr ⟨v, List.mem_cons_self _ _, rfl⟩)
      · exact Or.inl (List.mem_cons_of_mem _ hr')
    · rw [btModify_cons_gt d upd v rest h1] at hr
      rcases List.mem_cons.mp hr with rfl | hr'
      · exact Or.inl (List.mem_cons_self _ _)
      · rcases ih hr' with h | h | ⟨v', hv', h⟩
        · exact Or.inl (List.mem_cons_of_mem _ h)
        · exact Or.inr (Or.inl h)
        · exact Or.inr (Or.inr ⟨v', List.mem_cons_of_mem _ hv', h⟩)

theorem Sparse.sortedRows_insert {α : Type} (g : Sparse α) (p : Pt) (v : α)
    (hs : SortedRows g.rows) : SortedRows (g.insert p v).rows := by
  constructor
  · exact btModify_sortedFst _ _ _ hs.1
  · intro r hr
    rcases mem_btModify hr with h | h | ⟨row, hrow, h⟩
    · exact hs.2 r h
    · rw [h, btGetOrInsert_nil]
      simp [SortedFst]
    · rw [h]
      exact btGetOrInsert_sortedFst _ _ (hs.2 _ hrow)

theorem buildSparse_sorted {α : Type} (l : List (Pt × α)) :
    SortedRows (buildSparse l).rows := by
  suffices h : ∀ g : Sparse α, SortedRows g.rows →
      SortedRows (l.foldl (fun g pv => g.insert pv.1 pv.2) g).rows from
    h Sparse.empty ⟨List.Pairwise.nil, by simp [Sparse.empty]⟩
  induction l with
  | nil => intro g hg; exact hg
  | cons pv rest ih =>
    intro g hg
    exact ih _ (Sparse.sortedRows_insert g pv.1 pv.2 hg)

theorem mem_points_of_get {α : Type} {g : Sparse α} {p : Pt} {v : α}
    (h : g.get p = some v) : p ∈ g.points := by
  rw [Sparse.get] at h
  rcases hrow : btGet p.y g.rows with _ | row
  · rw [hrow] at h; exact Option.noConfusion h
  · rw [hrow] at h
    rw [points_eq_rowPoints]
    exact List.mem_flatMap.mpr ⟨(p.y, row), btGet_mem hrow,
      List.mem_map.mpr ⟨(p.x, v), btGet_mem h, rfl⟩⟩

/-- C7: inserting at an already-occupied point of an insert-built sparse grid
is a no-op: the stored value, the bounding box, and every other stored point
are unchanged.  (`Cartesian2D::insert` delegates to `get_or_insert_with`,
`src/rust/src/coords/spaces/sparse.rs:124-127,151-169`.) -/
theorem C7_sparse_insert_no_overwrite {α : Type} (l : List (Pt × α)) (p : Pt)
    (v w : α) (h : (buildSparse l).get p = some v) :
    (buildSparse l).insert p w = buildSparse l ∧
    ((buildSparse l).insert p w).get p = some v := by
  have hrows : ((buildSparse l).insert p w).rows = (buildSparse l).rows :=
    Sparse.insert_rows_of_get _ p w (buildSparse_sorted l) h
  have henc : (buildSparse l).encloses p = true := by
    have hmem : p ∈ l.map Prod.fst :=
      (mem_points_build l p).mp (mem_points_of_get h)
    exact (buildList_encloses l Sparse.empty).2 p hmem
  have hb : ((buildSparse l).insert p w).bounds = (buildSparse l).bounds :=
    unifyBounds_of_inBox henc
  have heq : (buildSparse l).insert p w = buildSparse l := by
    have hmk : ∀ (g g' : Sparse α), g.rows = g'.rows → g.bounds = g'.bounds →
        g = g' := by
      intro g g' h1 h2
      cases g; cases g'; cases h1; cases h2; rfl
    exact hmk _ _ hrows hb
  refine ⟨heq, ?_⟩
  rw [heq]
  exact h

/-- Witness for C7 at a concrete occupied point. -/
theorem C7_sparse_insert_no_overwrite_witness :
    (buildSparse [((⟨1, 2⟩ : Pt), (5 : Nat))]).get ⟨1, 2⟩ = some 5 ∧
    (buildSparse [((⟨1, 2⟩ : Pt), (5 : Nat))]).insert ⟨1, 2⟩ 9
      = buildSparse [((⟨1, 2⟩ : Pt), (5 : Nat))] :=
  ⟨by decide,
   (C7_sparse_insert_no_overwrite [((⟨1, 2⟩ : Pt), 5)] ⟨1, 2⟩ 5 9 (by decide)).1⟩

/-! ## Dense grid (`src/rust/src/coords/spaces/dense.rs`)

`from_raw` asserts rectangularity (a panic is embedded as `none`).
`in_bounds` subtracts the origin and compares the components, cast with `as`
to `usize`, against the table extents; the cast of a signed 64-bit value is
embedded as reduction modulo `2 ^ 64`. -/

structure Dense (α : Type) where
  origin : Pt
  table : List (List α)
deriving DecidableEq

/-- `Cartesian2D::from_raw`: `none` models the `assert!` panic on jagged
input. -/
def Dense.fromRaw {α : Type} (origin : Pt) (table : List (List α)) :
    Option (Dense α) :=
  match table with
  | [] => some ⟨origin, []⟩
  | r0 :: _ =>
    if table.all (fun r => r.length == r0.length) then some ⟨origin, table⟩
    else none

/-- `Cartesian2D::is_empty` (dense). -/
def Dense.isEmpty {α : Type} (g : Dense α) : Bool :=
  g.table.isEmpty || g.table.all List.isEmpty

/-- The `usize` cast of a signed 64-bit integer (`funty`'s `as_usize`):
two's-complement reinterpretation, i.e. reduction modulo `2 ^ 64`. -/
def asUsize (i : Int) : Nat := (i % (2 ^ 64)).toNat

/-- `Cartesian2D::in_bounds` (dense): shift by the origin, then compare the
cast components against the row count and the first row's column count. -/
def Dense.inBounds {α : Type} (g : Dense α) (p : Pt) : Bool :=
  if g.isEmpty then false
  else
    decide (asUsize (p.y - g.origin.y) < g.table.length) &&
    decide (asUsize (p.x - g.origin.x) < (g.table.headD []).length)

/-- C8: `from_raw` fails exactly on jagged input (some row length differs
from the first row's length) and otherwise stores origin and table
unchanged.  (`Cartesian2D::from_raw`, `src/rust/src/coords/spaces/dense.rs:40-48`.) -/
theorem C8_dense_from_raw {α : Type} (origin : Pt) (table : List (List α)) :
    ((Dense.fromRaw origin table).isSome ↔
      ∀ r ∈ table, r.length = (table.headD []).length) ∧
    ((∀ r ∈ table, r.length = (table.headD []).length) →
      Dense.fromRaw origin table = some ⟨origin, table⟩) := by
  cases table with
  | nil =>
    refine ⟨⟨fun _ r hr => absurd hr (List.not_mem_nil r), fun _ => rfl⟩, ?_⟩
    intro _
    rfl
  | cons r0 rest =>
    by_cases hall : ∀ r ∈ r0 :: rest, r.length = r0.length
    · have hb : (r0 :: rest).all (fun r => r.length == r0.length) = true :=
        List.all_eq_true.mpr (fun r hr => Nat.beq_eq_true_eq _ _ ▸ hall r hr)
      constructor
      · constructor
        · intro _
          simpa using hall
        · intro _
          rw [Dense.fromRaw, hb]
          rfl
      · intro _
        rw [Dense.fromRaw, hb]
        rfl
    · have hb : (r0 :: rest).all (fun r => r.length == r0.length) = false := by
        rcases not_forall.mp hall with ⟨r, hr⟩
        obtain ⟨hrmem, hrlen⟩ := Classical.not_imp.mp hr
        exact List.all_eq_false.mpr ⟨r, hrmem, by simpa using hrlen⟩
      constructor
      · constructor
        · intro hs
          rw [Dense.fromRaw, hb] at hs
          exact absurd hs (by simp)
        · intro h
          exact absurd (by simpa using h) hall
      · intro h
        exact absurd (by simpa using h) hall

/-- Witness for C8 at a concrete rectangular table. -/
theorem C8_dense_from_raw_witness :
    (∀ r ∈ [[1, 2], [3, 4], [5, 6]], r.length
      = ([[1, 2], [3, 4], [5, 6]].headD []).length) ∧
    Dense.fromRaw (⟨0, 0⟩ : Pt) [[1, 2], [3, 4], [5, 6]]
      = some ⟨⟨0, 0⟩, [[(1 : Nat), 2], [3, 4], [5, 6]]⟩ :=
  ⟨by decide,
   (C8_dense_from_raw ⟨0, 0⟩ [[(1 : Nat), 2], [3, 4], [5, 6]]).2 (by decide)⟩

theorem asUsize_lt_iff (d : Int) (n : Nat) (h1 : -(2 ^ 63) ≤ d)
    (h2 : d < 2 ^ 63) (h3 : (n : Int) < 2 ^ 63) :
    (asUsize d < n) ↔ (0 ≤ d ∧ d < n) := by
  unfold asUsize
  omega

/-- The 3×3 all-zero grid anchored at `(5,5)` of concrete scenario C. -/
def scenarioC : Dense Nat := ⟨⟨5, 5⟩, [[0, 0, 0], [0, 0, 0], [0, 0, 0]]⟩

/-- C9: on the 3×3 grid at origin `(5,5)`, `in_bounds` accepts `(5,5)` and
rejects `(8,5)` and `(4,5)`; in general, on a non-empty dense grid whose
extents and origin-shifted query components fit in a signed 64-bit integer,
`in_bounds p` holds exactly when both components of `p - origin` are
non-negative and strictly below the column and row counts.
(`Cartesian2D::in_bounds`, `src/rust/src/coords/spaces/dense.rs:71-78`.) -/
theorem C9_dense_in_bounds :
    (Dense.fromRaw (⟨5, 5⟩ : Pt) [[0, 0, 0], [0, 0, 0], [0, 0, 0]]
        = some scenarioC ∧
      scenarioC.inBounds ⟨5, 5⟩ = true ∧
      scenarioC.inBounds ⟨8, 5⟩ = false ∧
      scenarioC.inBounds ⟨4, 5⟩ = false) ∧
    ∀ (α : Type) (g : Dense α) (p : Pt), g.isEmpty = false →
      (g.table.length : Int) < 2 ^ 63 →
      ((g.table.headD []).length : Int) < 2 ^ 63 →
      -(2 ^ 63) ≤ p.y - g.origin.y → p.y - g.origin.y < 2 ^ 63 →
      -(2 ^ 63) ≤ p.x - g.origin.x → p.x - g.origin.x < 2 ^ 63 →
      (g.inBounds p = true ↔
        (0 ≤ p.x - g.origin.x ∧ p.x - g.origin.x < (g.table.headD []).length ∧
         0 ≤ p.y - g.origin.y ∧ p.y - g.origin.y < g.table.length)) := by
  refine ⟨by decide, ?_⟩
  intro α g p hne hrow hcol hy1 hy2 hx1 hx2
  rw [Dense.inBounds, hne]
  simp only [Bool.false_eq_true, if_false, Bool.and_eq_true, decide_eq_true_eq]
  rw [asUsize_lt_iff _ _ hy1 hy2 hrow, asUsize_lt_iff _ _ hx1 hx2 hcol]
  constructor
  · rintro ⟨⟨a, b⟩, c, d⟩
    exact ⟨c, d, a, b⟩
  · rintro ⟨c, d, a, b⟩
    exact ⟨⟨a, b⟩, c, d⟩

/-- Witness for C9's general part at a concrete grid and point. -/
theorem C9_dense_in_bounds_witness :
    scenarioC.isEmpty = false ∧ scenarioC.inBounds ⟨7, 6⟩ = true :=
  ⟨by decide,
   ((C9_dense_in_bounds).2 Nat scenarioC ⟨7, 6⟩ (by decide) (by decide)
      (by decide) (by decide) (by decide) (by decide) (by decide)).mpr
     (by decide)⟩

/-! ## Web (`src/rust/src/web.rs`)

Identifiers are `Nat` (the Rust `Identifier` wraps a `usize`; web sizes are
far below overflow so the arithmetic-free embedding is exact).  `nodes :
BTreeMap<Identifier, Ports>` with `Ports = BTreeMap<Identifier, Reachable>`
and `Reachable = BTreeSet<Identifier>` becomes a sorted association list of
sorted association lists of sorted duplicate-free lists, preserving the
iteration order that the search tie-breaking relies on. -/

/-- `BTreeSet::insert`. -/
def nsInsert (k : Nat) : List Nat → List Nat
  | [] => [k]
  | k' :: rest =>
    if k < k' then k :: k' :: rest
    else if k = k' then k' :: rest
    else k' :: nsInsert k rest

/-- `BTreeSet::extend`. -/
def nsExtend (s : List Nat) (adds : List Nat) : List Nat :=
  adds.foldl (fun acc a => nsInsert a acc) s

/-- `BTreeMap::remove` (drops the binding, returning the rest). -/
def btRemove {κ β : Type} [LinearOrder κ] (k : κ) : List (κ × β) → List (κ × β)
  | [] => []
  | (k', v) :: rest => if k = k' then rest else (k', v) :: btRemove k rest

/-- `web::Ports`: outbound links with their reachability caches. -/
abbrev Ports := List (Nat × List Nat)

/-- `web::Web`.  The `blank` fallback name only affects tracing output and is
not part of the embedded state. -/
structure Web where
  names : Dict String
  nodes : List (Nat × Ports)
deriving DecidableEq

/-- `Web::new`: the fresh dictionary already holds the `"<unnamed>"` fallback
at identifier `0`. -/
def Web.new : Web :=
  { names := (Dict.empty.insert "<unnamed>").2, nodes := [] }

/-- `Web::insert`. -/
def Web.insert (w : Web) (name : String) : Nat × Web :=
  let r := w.names.insert name
  (r.1, { names := r.2, nodes := btModify r.1 [] id w.nodes })

/-- `BTreeMap::entry(dst).or_default()` on a port map. -/
def ensurePort (dst : Nat) (ports : Ports) : Ports := btModify dst [] id ports

/-- `Web::create_link`. -/
def Web.createLink (w : Web) (one two : Nat) : Web :=
  { w with
    nodes := btModify two [] (ensurePort one)
      (btModify one [] (ensurePort two) w.nodes) }

/-- The port map of a node, when the node exists. -/
def Web.getPorts (w : Web) (i : Nat) : Option Ports := btGet i w.nodes

/-- `Web::get_node(_).is_some()`. -/
def Web.isNode (w : Web) (i : Nat) : Bool := (w.getPorts i).isSome

/-- `Node::neighbors`: the port keys in ascending order. -/
def Web.neighbors (w : Web) (i : Nat) : List Nat :=
  match w.getPorts i with
  | some ps => ps.map Prod.fst
  | none => []

/-- `Node::route_to`: the first port (in ascending key order) that either is
the target itself or has the target in its reachability cache. -/
def Web.routeTo (w : Web) (u goal : Nat) : Option Nat :=
  match w.getPorts u with
  | none => none
  | some ps => (ps.find? (fun ip => ip.1 == goal || ip.2.contains goal)).map Prod.fst

/-- `Web::mark_path`: record, for every hop of a path, all the later nodes of
the path as reachable through that hop. -/
def Web.markPath (w : Web) : List Nat → Web
  | current :: next :: rest =>
    Web.markPath
      { w with
        nodes := btModify current []
          (fun ports => btModify next [] (fun r => nsExtend r rest) ports)
          w.nodes }
      (next :: rest)
  | _ => w

/-- `Web::clear_routes`: empty every reachability cache, keep the topology. -/
def Web.clearRoutes (w : Web) : Web :=
  { w with
    nodes := w.nodes.map (fun nps =>
      (nps.1, nps.2.map (fun pr => (pr.1, ([] : List Nat))))) }

/-- `Web::remove_link_one_way`: drop the `src → dst` port.  The downstream
pruning of other nodes' caches is commented out in the source, so the only
observable effect is the removal of the one port. -/
def Web.removeLinkOneWay (w : Web) (src dst : Nat) : Web :=
  match w.getPorts src with
  | none => w
  | some _ => { w with nodes := btModify src [] (btRemove dst) w.nodes }

/-- `Web::remove_link`. -/
def Web.removeLink (w : Web) (one two : Nat) : Web :=
  (w.removeLinkOneWay one two).removeLinkOneWay two one

/-- Does node `u`'s cache claim that `v` is reachable through its port to `n`? -/
def Web.cacheHas (w : Web) (u n v : Nat) : Bool :=
  match w.getPorts u with
  | none => false
  | some ps =>
    match btGet n ps with
    | none => false
    | some r => r.contains v

/-- `web::Spider` (the shared goal is a loop parameter since every spider of
one search carries the same goal). -/
structure Spider where
  node : Nat
  path : List Nat
deriving DecidableEq

/-- The children pushed by `Spider::crawl_seq` step 4: one spider per
neighbor that still exists in the web. -/
def spawnChildren (w : Web) (path : List Nat) (u : Nat) : List Spider :=
  (w.neighbors u).filterMap
    (fun n => if w.isNode n then some (Spider.mk n path) else none)

/-- The number of web nodes not yet visited — the termination measure of the
search loops. -/
def countUnseen (w : Web) (seen : List Nat) : Nat :=
  ((w.nodes.map Prod.fst).filter (fun i => !(seen.contains i))).length

theorem nsInsert_cons_lt {k k' : Nat} (rest : List Nat) (h : k < k') :
    nsInsert k (k' :: rest) = k :: k' :: rest := by
  simp [nsInsert, h]

theorem nsInsert_cons_eq (k : Nat) (rest : List Nat) :
    nsInsert k (k :: rest) = k :: rest := by
  simp [nsInsert, lt_irrefl]

theorem nsInsert_cons_gt {k k' : Nat} (rest : List Nat) (h : k' < k) :
    nsInsert k (k' :: rest) = k' :: nsInsert k rest := by
  simp [nsInsert, not_lt_of_gt h, ne_of_gt h]

theorem nsInsert_mem (k : Nat) (s : List Nat) (x : Nat) :
    x ∈ nsInsert k s ↔ x = k ∨ x ∈ s := by
  induction s with
  | nil => simp [nsInsert]
  | cons k' rest ih =>
    rcases lt_trichotomy k k' with h | h | h
    · rw [nsInsert_cons_lt rest h]
      simp only [List.mem_cons]
    · subst h
      rw [nsInsert_cons_eq]
      simp only [List.mem_cons]
      tauto
    · rw [nsInsert_cons_gt rest h]
      simp only [List.mem_cons, ih]
      tauto

theorem filter_length_mono {γ : Type} (l : List γ) (p q : γ → Bool)
    (himp : ∀ x ∈ l, q x = true → p x = true) :
    (l.filter q).length ≤ (l.filter p).length := by
  induction l with
  | nil => exact le_refl _
  | cons a as ih =>
    have ih' := ih (fun x hx => himp x (List.mem_cons_of_mem a hx))
    by_cases hq : q a = true
    · rw [List.filter_cons_of_pos hq,
        List.filter_cons_of_pos (himp a (List.mem_cons_self a as) hq)]
      exact Nat.succ_le_succ ih'
    · rw [List.filter_cons_of_neg (by simpa using hq)]
      by_cases hp : p a = true
      · rw [List.filter_cons_of_pos hp]
        exact le_trans ih' (Nat.le_succ _)
      · rw [List.filter_cons_of_neg (by simpa using hp)]
        exact ih'

theorem filter_length_strict {γ : Type} [DecidableEq γ] (l : List γ)
    (p q : γ → Bool) (himp : ∀ x ∈ l, q x = true → p x = true)
    (x0 : γ) (hx0 : x0 ∈ l) (hp : p x0 = true) (hq : q x0 = false) :
    (l.filter q).length < (l.filter p).length := by
  induction l with
  | nil => exact absurd hx0 (List.not_mem_nil x0)
  | cons a as ih =>
    have himp' : ∀ x ∈ as, q x = true → p x = true :=
      fun x hx => himp x (List.mem_cons_of_mem a hx)
    by_cases ha : a = x0
    · subst ha
      rw [List.filter_cons_of_pos hp, List.filter_cons_of_neg (by simp [hq])]
      exact Nat.lt_succ_of_le (filter_length_mono as p q himp')
    · have hx0' : x0 ∈ as := by
        rcases List.mem_cons.mp hx0 with h | h
        · exact absurd h.symm ha
        · exact h
      have ihs := ih himp' hx0'
      by_cases hqa : q a = true
      · rw [List.filter_cons_of_pos hqa,
          List.filter_cons_of_pos (himp a (List.mem_cons_self a as) hqa)]
        exact Nat.succ_lt_succ ihs
      · rw [List.filter_cons_of_neg (by simpa using hqa)]
        by_cases hpa : p a = true
        · rw [List.filter_cons_of_pos hpa]
          exact Nat.lt_succ_of_lt ihs
        · rw [List.filter_cons_of_neg (by simpa using hpa)]
          exact ihs

theorem notContains_true {x : Nat} {s : List Nat} :
    ((!(s.contains x)) = true) ↔ ¬ x ∈ s := by
  simp

theorem countUnseen_insert_lt (w : Web) (seen : List Nat) (u : Nat)
    (hmem : u ∈ w.nodes.map Prod.fst) (hu : ¬ u ∈ seen) :
    countUnseen w (nsInsert u seen) < countUnseen w seen := by
  apply filter_length_strict _ _ _ ?_ u hmem ?_ ?_
  · intro x hx hq
    rw [notContains_true] at hq ⊢
    intro hxs
    exact hq ((nsInsert_mem u seen x).mpr (Or.inr hxs))
  · rw [notContains_true]
    exact hu
  · have h1 : u ∈ nsInsert u seen := (nsInsert_mem u seen u).mpr (Or.inl rfl)
    simp [h1]

theorem countUnseen_insert_eq (w : Web) (seen : List Nat) (u : Nat)
    (hmem : ¬ u ∈ w.nodes.map Prod.fst) :
    countUnseen w (nsInsert u seen) = countUnseen w seen := by
  unfold countUnseen
  apply congrArg List.length
  apply List.filter_congr
  intro x hx
  have hne : x ≠ u := fun h => hmem (h ▸ hx)
  have h2 : (((nsInsert u seen).contains x) = true) ↔ ((seen.contains x) = true) := by
    simp only [List.elem_iff, nsInsert_mem]
    constructor
    · rintro (h | h)
      · exact absurd h hne
      · exact h
    · exact Or.inr
  rw [Bool.eq_iff_iff.mpr h2]

theorem mem_fst_of_getPorts {w : Web} {u : Nat} {ps : Ports}
    (h : w.getPorts u = some ps) : u ∈ w.nodes.map Prod.fst :=
  List.mem_map.mpr ⟨(u, ps), btGet_mem h, rfl⟩

theorem getPorts_eq_none {w : Web} {u : Nat}
    (h : ¬ u ∈ w.nodes.map Prod.fst) : w.getPorts u = none := by
  cases hg : w.getPorts u with
  | none => rfl
  | some ps => exact absurd (mem_fst_of_getPorts hg) h

theorem routeTo_mem_fst {w : Web} {u g n : Nat} (h : w.routeTo u g = some n) :
    u ∈ w.nodes.map Prod.fst := by
  unfold Web.routeTo at h
  cases hg : w.getPorts u with
  | none => rw [hg] at h; exact Option.noConfusion h
  | some ps => exact mem_fst_of_getPorts hg

theorem spawnChildren_invalid {w : Web} {u : Nat} (path : List Nat)
    (h : ¬ u ∈ w.nodes.map Prod.fst) : spawnChildren w path u = [] := by
  unfold spawnChildren Web.neighbors
  rw [getPorts_eq_none h]
  rfl

/-- The driving loop of `Web::find_route`, iterating `Spider::crawl_seq` over
a FIFO queue with a shared visited set.  In one step the front spider aborts
if its node is already visited, succeeds if it stands on the goal,
fast-forwards along a known route when the routing cache offers one, and
otherwise spawns one child per still-existing neighbor, then dies. -/
def Web.crawlLoop (w : Web) (goal : Nat) (q : List Spider) (seen : List Nat) :
    Option (List Nat) :=
  match q with
  | [] => none
  | s :: rest =>
    if hs : s.node ∈ seen then w.crawlLoop goal rest seen
    else
      if s.node = goal then some (s.path ++ [s.node])
      else
        match hroute : w.routeTo s.node goal with
        | some next =>
          if w.isNode next then
            w.crawlLoop goal (rest ++ [⟨next, s.path ++ [s.node]⟩])
              (nsInsert s.node seen)
          else
            w.crawlLoop goal (rest ++ spawnChildren w (s.path ++ [s.node]) s.node)
              (nsInsert s.node seen)
        | none =>
          w.crawlLoop goal (rest ++ spawnChildren w (s.path ++ [s.node]) s.node)
            (nsInsert s.node seen)
termination_by (countUnseen w seen, q.length)
decreasing_by
  · exact Prod.Lex.right _ (Nat.lt_succ_self _)
  · exact Prod.Lex.left _ _
      (countUnseen_insert_lt w seen s.node (routeTo_mem_fst hroute) hs)
  · exact Prod.Lex.left _ _
      (countUnseen_insert_lt w seen s.node (routeTo_mem_fst hroute) hs)
  · by_cases hv : s.node ∈ w.nodes.map Prod.fst
    · exact Prod.Lex.left _ _ (countUnseen_insert_lt w seen s.node hv hs)
    · rw [countUnseen_insert_eq w seen s.node hv, spawnChildren_invalid _ hv,
        List.append_nil]
      exact Prod.Lex.right _ (Nat.lt_succ_self _)

/-- `Web::find_route`. -/
def Web.findRoute (w : Web) (src dst : Nat) : Option (List Nat) :=
  if w.isNode src then w.crawlLoop dst [⟨src, []⟩] [] else none

/-- The children pushed by `Spider::find_reachable_seq`: every neighbor that
still exists in the web. -/
def validNeighbors (w : Web) (u : Nat) : List Nat :=
  (w.neighbors u).filter (fun n => w.isNode n)

theorem validNeighbors_invalid {w : Web} {u : Nat}
    (h : ¬ u ∈ w.nodes.map Prod.fst) : validNeighbors w u = [] := by
  unfold validNeighbors Web.neighbors
  rw [getPorts_eq_none h]
  rfl

theorem flood_step_decreasing (w : Web) (seen : List Nat) (u : Nat)
    (rest : List Nat) (hs : ¬ u ∈ seen) :
    Prod.Lex (· < ·) (· < ·)
      (countUnseen w (nsInsert u seen), (rest ++ validNeighbors w u).length)
      (countUnseen w seen, (u :: rest).length) := by
  by_cases hv : u ∈ w.nodes.map Prod.fst
  · exact Prod.Lex.left _ _ (countUnseen_insert_lt w seen u hv hs)
  · rw [countUnseen_insert_eq w seen u hv, validNeighbors_invalid hv,
      List.append_nil]
    exact Prod.Lex.right _ (Nat.lt_succ_self _)

/-- The driving loop of `Web::count_reachable`, iterating
`Spider::find_reachable_seq`; returns the final visited set. -/
def Web.floodLoop (w : Web) (q : List Nat) (seen : List Nat) : List Nat :=
  match q with
  | [] => seen
  | u :: rest =>
    if hs : u ∈ seen then w.floodLoop rest seen
    else w.floodLoop (rest ++ validNeighbors w u) (nsInsert u seen)
termination_by (countUnseen w seen, q.length)
decreasing_by
  · exact Prod.Lex.right _ (Nat.lt_succ_self _)
  · apply flood_step_decreasing
    case hs => assumption

/-- `Web::count_reachable`. -/
def Web.countReachable (w : Web) (start : Nat) : Nat :=
  if w.isNode start then (w.floodLoop [start] []).length else 0

/-- The `chunks` slice adapter (the Rust caller passes a parallelism factor
of at least one). -/
def chunksPos {γ : Type} (n : Nat) : List γ → List (List γ)
  | [] => []
  | x :: xs => (x :: xs.take (n - 1)) :: chunksPos n (xs.drop (n - 1))
termination_by l => l.length
decreasing_by
  simp only [List.length_drop, List.length_cons]
  omega

theorem chunksPos_nil {γ : Type} (n : Nat) : chunksPos n ([] : List γ) = [] := by
  unfold chunksPos
  rfl

theorem chunksPos_cons {γ : Type} (n : Nat) (x : γ) (xs : List γ) :
    chunksPos n (x :: xs) =
      (x :: xs.take (n - 1)) :: chunksPos n (xs.drop (n - 1)) := by
  conv_lhs => rw [chunksPos.eq_def]

/-- The per-path marking done inside `find_all_routes`: mark the discovered
path, then mark its reversal. -/
def Web.markBoth (w : Web) (p : List Nat) : Web :=
  (w.markPath p).markPath p.reverse

/-- One chunk of `find_all_routes`: run `find_route` from `src` to every
destination of the group against the current web, then apply all marks. -/
def Web.applyChunk (w : Web) (src : Nat) (group : List Nat) : Web :=
  (group.filterMap (fun dst => w.findRoute src dst)).foldl Web.markBoth w

/-- `Web::find_all_routes`, parametrized by the runtime parallelism factor
(the chunk width): clear every cache, then for every source in ascending
order and every chunk of the later identifiers, search against the current
web and apply the discovered marks chunk by chunk. -/
def Web.findAllRoutes (par : Nat) (w : Web) : Web :=
  let w0 := w.clearRoutes
  let idents := w0.nodes.map Prod.fst
  (List.range idents.length).foldl
    (fun wa idx =>
      (chunksPos par (idents.drop (idx + 1))).foldl
        (fun wb group => wb.applyChunk (idents.getD idx 0) group) wa)
    w0

/-- A web built from a list of name pairs (`Web`'s `FromIterator`). -/
def webOfPairs (l : List (String × String)) : Web :=
  l.foldl
    (fun w p =>
      let r1 := w.insert p.1
      let r2 := r1.2.insert p.2
      r2.2.createLink r1.1 r2.1)
    Web.new

/-! ### Step lemmas for the search loops

`crawlLoop` and `floodLoop` are defined by well-founded recursion, so they do
not reduce definitionally; these equations drive both the generic proofs and
the concrete evaluations. -/

theorem crawlLoop_nil (w : Web) (goal : Nat) (seen : List Nat) :
    w.crawlLoop goal [] seen = none := by
  unfold Web.crawlLoop
  rfl

theorem crawlLoop_seen (w : Web) (goal : Nat) (s : Spider) (rest : List Spider)
    (seen : List Nat) (hs : s.node ∈ seen) :
    w.crawlLoop goal (s :: rest) seen = w.crawlLoop goal rest seen := by
  conv_lhs => rw [Web.crawlLoop.eq_def]
  dsimp only
  rw [dif_pos hs]

theorem crawlLoop_goal (w : Web) (goal : Nat) (s : Spider) (rest : List Spider)
    (seen : List Nat) (hs : ¬ s.node ∈ seen) (hg : s.node = goal) :
    w.crawlLoop goal (s :: rest) seen = some (s.path ++ [s.node]) := by
  conv_lhs => rw [Web.crawlLoop.eq_def]
  dsimp only
  rw [dif_neg hs, if_pos hg]

theorem crawlLoop_ff (w : Web) (goal : Nat) (s : Spider) (rest : List Spider)
    (seen : List Nat) (next : Nat) (hs : ¬ s.node ∈ seen) (hg : s.node ≠ goal)
    (hroute : w.routeTo s.node goal = some next) (hn : w.isNode next = true) :
    w.crawlLoop goal (s :: rest) seen =
      w.crawlLoop goal (rest ++ [⟨next, s.path ++ [s.node]⟩])
        (nsInsert s.node seen) := by
  conv_lhs => rw [Web.crawlLoop.eq_def]
  dsimp only
  rw [dif_neg hs, if_neg hg]
  split
  · rename_i next' heq
    rw [hroute] at heq
    cases heq
    rw [if_pos hn]
  · rename_i heq
    rw [hroute] at heq
    exact Option.noConfusion heq

theorem crawlLoop_ff_dead (w : Web) (goal : Nat) (s : Spider)
    (rest : List Spider) (seen : List Nat) (next : Nat) (hs : ¬ s.node ∈ seen)
    (hg : s.node ≠ goal) (hroute : w.routeTo s.node goal = some next)
    (hn : ¬ w.isNode next = true) :
    w.crawlLoop goal (s :: rest) seen =
      w.crawlLoop goal (rest ++ spawnChildren w (s.path ++ [s.node]) s.node)
        (nsInsert s.node seen) := by
  conv_lhs => rw [Web.crawlLoop.eq_def]
  dsimp only
  rw [dif_neg hs, if_neg hg]
  split
  · rename_i next' heq
    rw [hroute] at heq
    cases heq
    rw [if_neg hn]
  · rename_i heq
    rw [hroute] at heq

theorem crawlLoop_spawn (w : Web) (goal : Nat) (s : Spider)
    (rest : List Spider) (seen : List Nat) (hs : ¬ s.node ∈ seen)
    (hg : s.node ≠ goal) (hroute : w.routeTo s.node goal = none) :
    w.crawlLoop goal (s :: rest) seen =
      w.crawlLoop goal (rest ++ spawnChildren w (s.path ++ [s.node]) s.node)
        (nsInsert s.node seen) := by
  conv_lhs => rw [Web.crawlLoop.eq_def]
  dsimp only
  rw [dif_neg hs, if_neg hg]
  split
  · rename_i next' heq
    rw [hroute] at heq
    exact Option.noConfusion heq
  · rfl

theorem floodLoop_nil (w : Web) (seen : List Nat) :
    w.floodLoop [] seen = seen := by
  unfold Web.floodLoop
  rfl

theorem floodLoop_seen (w : Web) (u : Nat) (rest : List Nat) (seen : List Nat)
    (hs : u ∈ seen) : w.floodLoop (u :: rest) seen = w.floodLoop rest seen := by
  conv_lhs => rw [Web.floodLoop.eq_def]
  dsimp only
  rw [dif_pos hs]

theorem floodLoop_new (w : Web) (u : Nat) (rest : List Nat) (seen : List Nat)
    (hs : ¬ u ∈ seen) :
    w.floodLoop (u :: rest) seen =
      w.floodLoop (rest ++ validNeighbors w u) (nsInsert u seen) := by
  conv_lhs => rw [Web.floodLoop.eq_def]
  dsimp only
  rw [dif_neg hs]

/-! ### Walks -/

/-- Two nodes are linked when the second is a port key of the first. -/
def Web.linkedB (w : Web) (u v : Nat) : Bool :=
  match w.getPorts u with
  | some ps => (ps.map Prod.fst).contains v
  | none => false

/-- A walk: a non-empty list of existing nodes, consecutively linked. -/
def IsWalk (w : Web) (l : List Nat) : Prop :=
  l ≠ [] ∧ (∀ u ∈ l, w.isNode u = true) ∧
    l.Chain' (fun u v => w.linkedB u v = true)

/-- A walk from `src` to `dst`. -/
def IsPath (w : Web) (src dst : Nat) (l : List Nat) : Prop :=
  IsWalk w l ∧ l.head? = some src ∧ l.getLast? = some dst

/-- `b` is reachable from `a`. -/
def Reaches (w : Web) (a b : Nat) : Prop := ∃ l, IsPath w a b l

theorem routeTo_linked {w : Web} {u g n : Nat} (h : w.routeTo u g = some n) :
    w.linkedB u n = true := by
  unfold Web.routeTo at h
  unfold Web.linkedB
  cases hg : w.getPorts u with
  | none =>
    rw [hg] at h
    exact Option.noConfusion h
  | some ps =>
    rw [hg] at h
    dsimp only at h ⊢
    cases hf : ps.find? (fun ip => ip.1 == g || ip.2.contains g) with
    | none =>
      rw [hf] at h
      exact Option.noConfusion h
    | some ip =>
      rw [hf] at h
      cases h
      have hmem : ip ∈ ps := List.mem_of_find?_eq_some hf
      exact List.elem_iff.mpr (List.mem_map_of_mem Prod.fst hmem)

theorem mem_spawnChildren {w : Web} {path : List Nat} {u : Nat} {c : Spider}
    (hc : c ∈ spawnChildren w path u) :
    c.path = path ∧ w.isNode c.node = true ∧ w.linkedB u c.node = true := by
  unfold spawnChildren at hc
  obtain ⟨n, hn, hcn⟩ := List.mem_filterMap.mp hc
  by_cases hv : w.isNode n = true
  · rw [if_pos hv] at hcn
    cases hcn
    refine ⟨rfl, hv, ?_⟩
    unfold Web.neighbors at hn
    unfold Web.linkedB
    cases hg : w.getPorts u with
    | none =>
      rw [hg] at hn
      exact absurd hn (List.not_mem_nil n)
    | some ps =>
      rw [hg] at hn
      dsimp only at hn ⊢
      exact List.elem_iff.mpr hn
  · rw [if_neg hv] at hcn
    exact Option.noConfusion hcn

theorem isWalk_singleton {w : Web} {u : Nat} (h : w.isNode u = true) :
    IsWalk w [u] :=
  ⟨by simp, by simpa using h, List.chain'_singleton u⟩

theorem isWalk_extend {w : Web} {l : List Nat} {u v : Nat} (hw : IsWalk w l)
    (hl : l.getLast? = some u) (hlink : w.linkedB u v = true)
    (hv : w.isNode v = true) : IsWalk w (l ++ [v]) := by
  obtain ⟨hne, hmem, hchain⟩ := hw
  refine ⟨by simp, ?_, ?_⟩
  · intro x hx
    rcases List.mem_append.mp hx with h | h
    · exact hmem x h
    · rw [List.mem_singleton.mp h]
      exact hv
  · rw [List.chain'_append]
    refine ⟨hchain, List.chain'_singleton v, ?_⟩
    intro a ha b hb
    rw [hl] at ha
    cases ha
    rw [List.head?_cons] at hb
    cases hb
    exact hlink

/-- The invariant carried by every spider of a search from `src`: its
accumulated path together with its current node is a walk from `src`. -/
def SpiderOK (w : Web) (src : Nat) (s : Spider) : Prop :=
  IsWalk w (s.path ++ [s.node]) ∧ (s.path ++ [s.node]).head? = some src

theorem spiderOK_extend {w : Web} {src : Nat} {s : Spider} {n : Nat}
    (hok : SpiderOK w src s) (hlink : w.linkedB s.node n = true)
    (hn : w.isNode n = true) : SpiderOK w src ⟨n, s.path ++ [s.node]⟩ := by
  obtain ⟨hwalk, hhead⟩ := hok
  constructor
  · exact isWalk_extend hwalk (List.getLast?_concat _) hlink hn
  · show ((s.path ++ [s.node]) ++ [n]).head? = some src
    rw [List.head?_append, hhead]
    rfl

theorem crawlLoop_sound (w : Web) (goal src : Nat) :
    ∀ (q : List Spider) (seen : List Nat),
      (∀ s ∈ q, SpiderOK w src s) →
      ∀ p, w.crawlLoop goal q seen = some p → IsPath w src goal p := by
  apply Web.crawlLoop.induct w goal
    (motive := fun q seen => (∀ s ∈ q, SpiderOK w src s) →
      ∀ p, w.crawlLoop goal q seen = some p → IsPath w src goal p)
  · intro seen _ p hp
    rw [crawlLoop_nil] at hp
    exact Option.noConfusion hp
  · intro seen s rest hs ih hq p hp
    rw [crawlLoop_seen w goal s rest seen hs] at hp
    exact ih (fun t ht => hq t (List.mem_cons_of_mem s ht)) p hp
  · intro seen s rest hs hg hq p hp
    rw [crawlLoop_goal w goal s rest seen hs hg] at hp
    cases hp
    obtain ⟨hwalk, hhead⟩ := hq s (List.mem_cons_self s rest)
    refine ⟨hwalk, hhead, ?_⟩
    rw [List.getLast?_concat, hg]
  · intro seen s rest hs hg next hroute hn ih hq p hp
    rw [crawlLoop_ff w goal s rest seen next hs hg hroute hn] at hp
    refine ih ?_ p hp
    intro t ht
    rcases List.mem_append.mp ht with h | h
    · exact hq t (List.mem_cons_of_mem s h)
    · rw [List.mem_singleton.mp h]
      exact spiderOK_extend (hq s (List.mem_cons_self s rest))
        (routeTo_linked hroute) hn
  · intro seen s rest hs hg next hroute hn ih hq p hp
    rw [crawlLoop_ff_dead w goal s rest seen next hs hg hroute hn] at hp
    refine ih ?_ p hp
    intro t ht
    rcases List.mem_append.mp ht with h | h
    · exact hq t (List.mem_cons_of_mem s h)
    · obtain ⟨hpath, hvalid, hlink⟩ := mem_spawnChildren h
      have := spiderOK_extend (hq s (List.mem_cons_self s rest)) hlink hvalid
      rcases t with ⟨tn, tp⟩
      cases hpath
      exact this
  · intro seen s rest hs hg hroute ih hq p hp
    rw [crawlLoop_spawn w goal s rest seen hs hg hroute] at hp
    refine ih ?_ p hp
    intro t ht
    rcases List.mem_append.mp ht with h | h
    · exact hq t (List.mem_cons_of_mem s h)
    · obtain ⟨hpath, hvalid, hlink⟩ := mem_spawnChildren h
      have := spiderOK_extend (hq s (List.mem_cons_self s rest)) hlink hvalid
      rcases t with ⟨tn, tp⟩
      cases hpath
      exact this

/-- C10: `find_route` returns `none` when the start identifier is not a node
of the web or when no path exists, and a returned route is an actual path —
regardless of the contents of the routing caches.  The embedding is total, so
there is no panic on disconnected queries.  (`Web::find_route` and
`Spider::new`, `src/rust/src/web.rs:174-203,540-551`.) -/
theorem C10_find_route_failure (w : Web) (src dst : Nat) :
    (w.isNode src = false → w.findRoute src dst = none) ∧
    (∀ p, w.findRoute src dst = some p → IsPath w src dst p) ∧
    ((¬ ∃ l, IsPath w src dst l) → w.findRoute src dst = none) := by
  have hsound : ∀ p, w.findRoute src dst = some p → IsPath w src dst p := by
    intro p hp
    unfold Web.findRoute at hp
    by_cases h : w.isNode src = true
    · rw [if_pos h] at hp
      refine crawlLoop_sound w dst src [⟨src, []⟩] [] ?_ p hp
      intro s hsq
      rw [List.mem_singleton.mp hsq]
      exact ⟨isWalk_singleton h, rfl⟩
    · rw [if_neg h] at hp
      exact Option.noConfusion hp
  refine ⟨?_, hsound, ?_⟩
  · intro h
    unfold Web.findRoute
    rw [if_neg (by rw [h]; exact Bool.false_ne_true)]
  · intro hne
    cases hr : w.findRoute src dst with
    | none => rfl
    | some p => exact absurd ⟨p, hsound p hr⟩ hne

/-- The 4-node path graph of concrete end-to-end scenario A
(`a`–`b`–`c`–`d`, identifiers 1–4; identifier 0 is the `"<unnamed>"`
fallback). -/
def pathWeb : Web := webOfPairs [("a", "b"), ("b", "c"), ("c", "d")]

/-- A diamond with two equal-length shortest routes between 1 and 4. -/
def diamondWeb : Web := webOfPairs [("a", "b"), ("a", "c"), ("b", "d"), ("c", "d")]

/-- Witness for C10: querying from an identifier that is not a node. -/
theorem C10_find_route_failure_witness :
    pathWeb.isNode 99 = false ∧ pathWeb.findRoute 99 4 = none :=
  ⟨by decide, (C10_find_route_failure pathWeb 99 4).1 (by decide)⟩

theorem mem_neighbors {w : Web} {u v : Nat} :
    v ∈ w.neighbors u ↔ w.linkedB u v = true := by
  unfold Web.neighbors Web.linkedB
  cases hg : w.getPorts u with
  | none => simp
  | some ps => exact ⟨fun h => List.elem_iff.mpr h, fun h => List.elem_iff.mp h⟩

theorem mem_validNeighbors {w : Web} {u v : Nat} :
    v ∈ validNeighbors w u ↔ (w.linkedB u v = true ∧ w.isNode v = true) := by
  unfold validNeighbors
  rw [List.mem_filter, mem_neighbors]

theorem nsInsert_sorted {u : Nat} {s : List Nat} (h : s.Pairwise (· < ·)) :
    (nsInsert u s).Pairwise (· < ·) := by
  induction s with
  | nil => simp [nsInsert]
  | cons k' rest ih =>
    obtain ⟨hk, hrest⟩ := List.pairwise_cons.mp h
    rcases lt_trichotomy u k' with h1 | h1 | h1
    · rw [nsInsert_cons_lt rest h1]
      refine List.pairwise_cons.mpr ⟨?_, h⟩
      intro b hb
      rcases List.mem_cons.mp hb with rfl | hb'
      · exact h1
      · exact lt_trans h1 (hk b hb')
    · subst h1
      rw [nsInsert_cons_eq]
      exact h
    · rw [nsInsert_cons_gt rest h1]
      refine List.pairwise_cons.mpr ⟨?_, ih hrest⟩
      intro b hb
      rcases (nsInsert_mem u rest b).mp hb with rfl | hb'
      · exact h1
      · exact hk b hb'

theorem sorted_nodup {s : List Nat} (h : s.Pairwise (· < ·)) : s.Nodup :=
  h.imp ne_of_lt

theorem isWalk_tail {w : Web} {a : Nat} {l : List Nat} (h : IsWalk w (a :: l))
    (hne : l ≠ []) : IsWalk w l :=
  ⟨hne, fun u hu => h.2.1 u (List.mem_cons_of_mem a hu), h.2.2.tail⟩

theorem reaches_self {w : Web} {a : Nat} (h : w.isNode a = true) :
    Reaches w a a :=
  ⟨[a], isWalk_singleton h, rfl, rfl⟩

theorem reaches_extend {w : Web} {a u v : Nat} (h : Reaches w a u)
    (hlink : w.linkedB u v = true) (hv : w.isNode v = true) : Reaches w a v := by
  obtain ⟨l, hw, hh, hl⟩ := h
  refine ⟨l ++ [v], isWalk_extend hw hl hlink hv, ?_, List.getLast?_concat _⟩
  rw [List.head?_append, hh]
  rfl

theorem walk_closed {w : Web} {S : List Nat}
    (hcl : ∀ u ∈ S, ∀ v ∈ validNeighbors w u, v ∈ S) :
    ∀ l, IsWalk w l → ∀ a, l.head? = some a → a ∈ S →
      ∀ b, l.getLast? = some b → b ∈ S := by
  intro l
  induction l with
  | nil => intro hw; exact absurd rfl hw.1
  | cons x rest ih =>
    intro hw a ha haS b hb
    rw [List.head?_cons] at ha
    cases ha
    cases rest with
    | nil =>
      rw [List.getLast?_singleton] at hb
      cases hb
      exact haS
    | cons y rest' =>
      have hlink : w.linkedB x y = true := (List.chain'_cons.mp hw.2.2).1
      have hyv : y ∈ validNeighbors w x :=
        mem_validNeighbors.mpr ⟨hlink, hw.2.1 y (by simp)⟩
      have hyS : y ∈ S := hcl x haS y hyv
      have hw' : IsWalk w (y :: rest') := isWalk_tail hw (by simp)
      rw [List.getLast?_cons_cons] at hb
      exact ih hw' y rfl hyS b hb

/-- Full characterization of the flood-fill loop: starting from a queue of
reachable existing nodes and a visited set consistent with it, the loop
returns a sorted visited set that is sound (every member is reachable from
`start`), closed under existing neighbors, and contains the initial visited
set and queue. -/
theorem floodLoop_spec (w : Web) (start : Nat) :
    ∀ (q seen : List Nat),
      (∀ v ∈ seen, Reaches w start v) →
      (∀ v ∈ q, w.isNode v = true ∧ Reaches w start v) →
      (∀ u ∈ seen, ∀ v ∈ validNeighbors w u, v ∈ seen ∨ v ∈ q) →
      seen.Pairwise (· < ·) →
      ((∀ v ∈ w.floodLoop q seen, Reaches w start v) ∧
       (∀ u ∈ w.floodLoop q seen, ∀ v ∈ validNeighbors w u,
         v ∈ w.floodLoop q seen) ∧
       (∀ v ∈ seen, v ∈ w.floodLoop q seen) ∧
       (∀ v ∈ q, v ∈ w.floodLoop q seen) ∧
       (w.floodLoop q seen).Pairwise (· < ·)) := by
  apply Web.floodLoop.induct w
    (motive := fun q seen =>
      (∀ v ∈ seen, Reaches w start v) →
      (∀ v ∈ q, w.isNode v = true ∧ Reaches w start v) →
      (∀ u ∈ seen, ∀ v ∈ validNeighbors w u, v ∈ seen ∨ v ∈ q) →
      seen.Pairwise (· < ·) →
      ((∀ v ∈ w.floodLoop q seen, Reaches w start v) ∧
       (∀ u ∈ w.floodLoop q seen, ∀ v ∈ validNeighbors w u,
         v ∈ w.floodLoop q seen) ∧
       (∀ v ∈ seen, v ∈ w.floodLoop q seen) ∧
       (∀ v ∈ q, v ∈ w.floodLoop q seen) ∧
       (w.floodLoop q seen).Pairwise (· < ·)))
  · intro seen hseen _ hcl hsort
    rw [floodLoop_nil]
    exact ⟨hseen,
      fun u hu v hv => (hcl u hu v hv).resolve_right (List.not_mem_nil v),
      fun v hv => hv, fun v hv => absurd hv (List.not_mem_nil v), hsort⟩
  · intro seen u rest hs ih hseen hq hcl hsort
    rw [floodLoop_seen w u rest seen hs]
    have hcl' : ∀ u' ∈ seen, ∀ v ∈ validNeighbors w u', v ∈ seen ∨ v ∈ rest := by
      intro u' hu' v hv
      rcases hcl u' hu' v hv with h | h
      · exact Or.inl h
      · rcases List.mem_cons.mp h with rfl | h'
        · exact Or.inl hs
        · exact Or.inr h'
    obtain ⟨s1, s2, s3, s4, s5⟩ :=
      ih hseen (fun v hv => hq v (List.mem_cons_of_mem u hv)) hcl' hsort
    refine ⟨s1, s2, s3, ?_, s5⟩
    intro v hv
    rcases List.mem_cons.mp hv with rfl | h'
    · exact s3 v hs
    · exact s4 v h'
  · intro seen u rest hs ih hseen hq hcl hsort
    rw [floodLoop_new w u rest seen hs]
    have hu := hq u (List.mem_cons_self u rest)
    have hseen' : ∀ v ∈ nsInsert u seen, Reaches w start v := by
      intro v hv
      rcases (nsInsert_mem u seen v).mp hv with rfl | h'
      · exact hu.2
      · exact hseen v h'
    have hq' : ∀ v ∈ rest ++ validNeighbors w u,
        w.isNode v = true ∧ Reaches w start v := by
      intro v hv
      rcases List.mem_append.mp hv with h | h
      · exact hq v (List.mem_cons_of_mem u h)
      · obtain ⟨hlink, hvalid⟩ := mem_validNeighbors.mp h
        exact ⟨hvalid, reaches_extend hu.2 hlink hvalid⟩
    have hcl' : ∀ u' ∈ nsInsert u seen, ∀ v ∈ validNeighbors w u',
        v ∈ nsInsert u seen ∨ v ∈ rest ++ validNeighbors w u := by
      intro u' hu' v hv
      rcases (nsInsert_mem u seen u').mp hu' with rfl | h'
      · exact Or.inr (List.mem_append_right rest hv)
      · rcases hcl u' h' v hv with h | h
        · exact Or.inl ((nsInsert_mem u seen v).mpr (Or.inr h))
        · rcases List.mem_cons.mp h with rfl | h2
          · exact Or.inl ((nsInsert_mem v seen v).mpr (Or.inl rfl))
          · exact Or.inr (List.mem_append_left _ h2)
    obtain ⟨s1, s2, s3, s4, s5⟩ := ih hseen' hq' hcl' (nsInsert_sorted hsort)
    refine ⟨s1, s2, ?_, ?_, s5⟩
    · intro v hv
      exact s3 v ((nsInsert_mem u seen v).mpr (Or.inr hv))
    · intro v hv
      rcases List.mem_cons.mp hv with rfl | h'
      · exact s3 v ((nsInsert_mem v seen v).mpr (Or.inl rfl))
      · exact s4 v (List.mem_append_left _ h')

/-- C6: for a valid start node, `count_reachable` returns exactly the number
of nodes reachable from it (its connected component, including itself; nodes
of disjoint components contribute nothing).  (`Web::count_reachable` and
`Spider::find_reachable_seq`, `src/rust/src/web.rs:220-232,628-645`.) -/
theorem C6_count_reachable (w : Web) (start : Nat)
    (h : w.isNode start = true) :
    w.countReachable start = Set.ncard {v | Reaches w start v} := by
  obtain ⟨s1, s2, s3, s4, s5⟩ := floodLoop_spec w start [start] []
    (fun v hv => absurd hv (List.not_mem_nil v))
    (by
      intro v hv
      rw [List.mem_singleton.mp hv]
      exact ⟨h, reaches_self h⟩)
    (fun u hu => absurd hu (List.not_mem_nil u))
    List.Pairwise.nil
  have hstart : start ∈ w.floodLoop [start] [] :=
    s4 start (List.mem_singleton.mpr rfl)
  have hmem : ∀ v, v ∈ w.floodLoop [start] [] ↔ Reaches w start v := by
    intro v
    constructor
    · exact s1 v
    · rintro ⟨l, hw, hh, hl⟩
      exact walk_closed s2 l hw start hh hstart v hl
  unfold Web.countReachable
  rw [if_pos h]
  have hset : {v | Reaches w start v} = ↑(w.floodLoop [start] []).toFinset := by
    ext v
    simp only [Set.mem_setOf_eq, Finset.coe_sort_coe, Finset.mem_coe,
      List.mem_toFinset]
    exact (hmem v).symm
  rw [hset, Set.ncard_coe_Finset, List.toFinset_card_of_nodup (sorted_nodup s5)]

/-! ### A concrete routing pass

The 3-node path web `x`–`a`–`b` (identifiers 1, 2, 3), its state after
`find_all_routes`, and the concrete route computations needed to evaluate the
well-founded search loops on it. -/

def xabWeb : Web := webOfPairs [("x", "a"), ("a", "b")]

/-- The value of `xabWeb.findAllRoutes 1`, computed below: routing the pair
`(x, b)` along `[1, 2, 3]` caches `b` behind `x`'s port to `a` and `x` behind
`b`'s port to `a`. -/
def xabWarm : Web :=
  ⟨⟨["<unnamed>", "x", "a", "b"]⟩,
   [(1, [(2, [3])]), (2, [(1, []), (3, [])]), (3, [(2, [1])])]⟩

theorem xab_route_12 : xabWeb.findRoute 1 2 = some [1, 2] := by
  unfold Web.findRoute
  rw [if_pos (by decide : xabWeb.isNode 1 = true)]
  rw [crawlLoop_ff xabWeb 2 ⟨1, []⟩ [] [] 2 (by decide) (by decide) (by decide)
    (by decide)]
  show xabWeb.crawlLoop 2 [⟨2, [1]⟩] [1] = some [1, 2]
  rw [crawlLoop_goal xabWeb 2 ⟨2, [1]⟩ [] [1] (by decide) (by decide)]
  rfl

theorem xab_route_13 : xabWeb.findRoute 1 3 = some [1, 2, 3] := by
  unfold Web.findRoute
  rw [if_pos (by decide : xabWeb.isNode 1 = true)]
  rw [crawlLoop_spawn xabWeb 3 ⟨1, []⟩ [] [] (by decide) (by decide) (by decide)]
  show xabWeb.crawlLoop 3 [⟨2, [1]⟩] [1] = some [1, 2, 3]
  rw [crawlLoop_ff xabWeb 3 ⟨2, [1]⟩ [] [1] 3 (by decide) (by decide) (by decide)
    (by decide)]
  show xabWeb.crawlLoop 3 [⟨3, [1, 2]⟩] [1, 2] = some [1, 2, 3]
  rw [crawlLoop_goal xabWeb 3 ⟨3, [1, 2]⟩ [] [1, 2] (by decide) (by decide)]
  rfl

theorem xabWarm_route_23 : xabWarm.findRoute 2 3 = some [2, 3] := by
  unfold Web.findRoute
  rw [if_pos (by decide : xabWarm.isNode 2 = true)]
  rw [crawlLoop_ff xabWarm 3 ⟨2, []⟩ [] [] 3 (by decide) (by decide) (by decide)
    (by decide)]
  show xabWarm.crawlLoop 3 [⟨3, [2]⟩] [2] = some [2, 3]
  rw [crawlLoop_goal xabWarm 3 ⟨3, [2]⟩ [] [2] (by decide) (by decide)]
  rfl

theorem xab_chunk_12 : xabWeb.applyChunk 1 [2] = xabWeb := by
  unfold Web.applyChunk
  have hfm : [2].filterMap (fun dst => xabWeb.findRoute 1 dst) = [[1, 2]] := by
    rw [List.filterMap_cons, xab_route_12]
    rfl
  rw [hfm]
  decide

theorem xab_chunk_13 : xabWeb.applyChunk 1 [3] = xabWarm := by
  unfold Web.applyChunk
  have hfm : [3].filterMap (fun dst => xabWeb.findRoute 1 dst) = [[1, 2, 3]] := by
    rw [List.filterMap_cons, xab_route_13]
    rfl
  rw [hfm]
  decide

theorem xab_chunk_23 : xabWarm.applyChunk 2 [3] = xabWarm := by
  unfold Web.applyChunk
  have hfm : [3].filterMap (fun dst => xabWarm.findRoute 2 dst) = [[2, 3]] := by
    rw [List.filterMap_cons, xabWarm_route_23]
    rfl
  rw [hfm]
  decide

theorem chunks_one_23 : chunksPos 1 ([2, 3] : List Nat) = [[2], [3]] := by
  rw [chunksPos_cons]
  show ([2] : List Nat) :: chunksPos 1 [3] = [[2], [3]]
  rw [chunksPos_cons]
  show ([2] : List Nat) :: [3] :: chunksPos 1 [] = [[2], [3]]
  rw [chunksPos_nil]

theorem chunks_one_3 : chunksPos 1 ([3] : List Nat) = [[3]] := by
  rw [chunksPos_cons]
  show ([3] : List Nat) :: chunksPos 1 [] = [[3]]
  rw [chunksPos_nil]

/-- `find_all_routes` on the `x`–`a`–`b` web (with chunk width 1) produces
exactly the warmed state `xabWarm`. -/
theorem xab_findAllRoutes : xabWeb.findAllRoutes 1 = xabWarm := by
  show (chunksPos 1 ([] : List Nat)).foldl
      (fun wb group => wb.applyChunk 3 group)
      ((chunksPos 1 ([3] : List Nat)).foldl
        (fun wb group => wb.applyChunk 2 group)
        ((chunksPos 1 ([2, 3] : List Nat)).foldl
          (fun wb group => wb.applyChunk 1 group) xabWeb)) = xabWarm
  rw [chunksPos_nil, chunks_one_3, chunks_one_23]
  dsimp only [List.foldl_cons, List.foldl_nil]
  rw [xab_chunk_12, xab_chunk_13, xab_chunk_23]

/-- C3: the code keeps stale routing-cache entries after `remove_link`, so
the claimed pruning does not happen.  After `find_all_routes` on the path
`x`–`a`–`b` (1–2–3), node 1 caches `3` as reachable through its port to `2`;
`remove_link(2, 3)` removes the `2 → 3` and `3 → 2` ports, yet node 1's cache
still claims `3` reachable through `2` even though the edge is gone: the
downstream pruning loop of `remove_link_one_way` is commented out in the
source, contradicting its own doc comment ("informs all nodes which routed
through `src -> dst` that `dst` … no longer reachable").
(`Web::remove_link_one_way`, `src/rust/src/web.rs:298-335`.) -/
theorem C3_remove_link_stale_cache :
    (xabWeb.findAllRoutes 1).cacheHas 1 2 3 = true ∧
    ((xabWeb.findAllRoutes 1).removeLink 2 3).linkedB 2 3 = false ∧
    ((xabWeb.findAllRoutes 1).removeLink 2 3).cacheHas 1 2 3 = true := by
  rw [xab_findAllRoutes]
  exact ⟨by decide, by decide, by decide⟩

/-- The poisoned web: warm the `x`–`a`–`b` path, remove the `a`–`b` link
(which leaves node 1's cache stale, see `C3_remove_link_stale_cache`), then
link `x` and `b` directly.  Every step is public `Web` API. -/
def poisonedWeb : Web := ((xabWeb.findAllRoutes 1).removeLink 2 3).createLink 1 3

/-- The explicit value of `poisonedWeb`. -/
def poisonedVal : Web :=
  ⟨⟨["<unnamed>", "x", "a", "b"]⟩,
   [(1, [(2, [3]), (3, [])]), (2, [(1, [])]), (3, [(1, [])])]⟩

theorem poisonedWeb_val : poisonedWeb = poisonedVal := by
  unfold poisonedWeb
  rw [xab_findAllRoutes]
  decide

/-- C1 counterexample: in `poisonedWeb` the nodes 1 and 3 are distinct and
directly linked (same connected component), yet `find_route 1 3` returns
`none`: the spider fast-forwards along the stale cache entry into the severed
branch and the search dies without exploring the direct link. -/
theorem C1_counterexample_poisoned :
    (1 : Nat) ≠ 3 ∧
    poisonedWeb.linkedB 1 3 = true ∧
    IsPath poisonedWeb 1 3 [1, 3] ∧
    poisonedWeb.findRoute 1 3 = none := by
  rw [poisonedWeb_val]
  refine ⟨by decide, by decide, ⟨⟨by decide, by decide, ?_⟩, rfl, rfl⟩, ?_⟩
  · rw [List.chain'_cons]
    exact ⟨by decide, List.chain'_singleton 3⟩
  · unfold Web.findRoute
    rw [if_pos (by decide : poisonedVal.isNode 1 = true)]
    rw [crawlLoop_ff poisonedVal 3 ⟨1, []⟩ [] [] 2 (by decide) (by decide)
      (by decide) (by decide)]
    show poisonedVal.crawlLoop 3 [⟨2, [1]⟩] [1] = none
    rw [crawlLoop_spawn poisonedVal 3 ⟨2, [1]⟩ [] [1] (by decide) (by decide)
      (by decide)]
    show poisonedVal.crawlLoop 3 [⟨1, [1, 2]⟩] [1, 2] = none
    rw [crawlLoop_seen poisonedVal 3 ⟨1, [1, 2]⟩ [] [1, 2] (by decide)]
    rw [crawlLoop_nil]

/-- Concrete end-to-end scenario A: the 4-node path graph routes `a` to `d`
along `[1, 2, 3, 4]`. -/
theorem pathWeb_route : pathWeb.findRoute 1 4 = some [1, 2, 3, 4] := by
  unfold Web.findRoute
  rw [if_pos (by decide : pathWeb.isNode 1 = true)]
  rw [crawlLoop_spawn pathWeb 4 ⟨1, []⟩ [] [] (by decide) (by decide) (by decide)]
  show pathWeb.crawlLoop 4 [⟨2, [1]⟩] [1] = some [1, 2, 3, 4]
  rw [crawlLoop_spawn pathWeb 4 ⟨2, [1]⟩ [] [1] (by decide) (by decide)
    (by decide)]
  show pathWeb.crawlLoop 4 [⟨1, [1, 2]⟩, ⟨3, [1, 2]⟩] [1, 2] = some [1, 2, 3, 4]
  rw [crawlLoop_seen pathWeb 4 ⟨1, [1, 2]⟩ [⟨3, [1, 2]⟩] [1, 2] (by decide)]
  rw [crawlLoop_ff pathWeb 4 ⟨3, [1, 2]⟩ [] [1, 2] 4 (by decide) (by decide)
    (by decide) (by decide)]
  show pathWeb.crawlLoop 4 [⟨4, [1, 2, 3]⟩] [1, 2, 3] = some [1, 2, 3, 4]
  rw [crawlLoop_goal pathWeb 4 ⟨4, [1, 2, 3]⟩ [] [1, 2, 3] (by decide)
    (by decide)]
  rfl

/-- Tie-breaking on the diamond: of the two shortest routes `[1, 2, 4]` and
`[1, 3, 4]`, the search returns the one through the lower identifier. -/
theorem diamondWeb_route : diamondWeb.findRoute 1 4 = some [1, 2, 4] := by
  unfold Web.findRoute
  rw [if_pos (by decide : diamondWeb.isNode 1 = true)]
  rw [crawlLoop_spawn diamondWeb 4 ⟨1, []⟩ [] [] (by decide) (by decide)
    (by decide)]
  show diamondWeb.crawlLoop 4 [⟨2, [1]⟩, ⟨3, [1]⟩] [1] = some [1, 2, 4]
  rw [crawlLoop_ff diamondWeb 4 ⟨2, [1]⟩ [⟨3, [1]⟩] [1] 4 (by decide) (by decide)
    (by decide) (by decide)]
  show diamondWeb.crawlLoop 4 [⟨3, [1]⟩, ⟨4, [1, 2]⟩] [1, 2] = some [1, 2, 4]
  rw [crawlLoop_ff diamondWeb 4 ⟨3, [1]⟩ [⟨4, [1, 2]⟩] [1, 2] 4 (by decide)
    (by decide) (by decide) (by decide)]
  show diamondWeb.crawlLoop 4 [⟨4, [1, 2]⟩, ⟨4, [1, 3]⟩] [1, 2, 3] = some [1, 2, 4]
  rw [crawlLoop_goal diamondWeb 4 ⟨4, [1, 2]⟩ [⟨4, [1, 3]⟩] [1, 2, 3] (by decide)
    (by decide)]
  rfl

/-- Witness for C6 on the 4-node path graph. -/
theorem C6_count_reachable_witness :
    pathWeb.isNode 1 = true ∧
    pathWeb.countReachable 1 = Set.ncard {v | Reaches pathWeb 1 v} :=
  ⟨by decide, C6_count_reachable pathWeb 1 (by decide)⟩

/-! ### Shortest paths -/

/-- `n` is the length (node count) of a shortest path from `a` to `b`. -/
def ShortestPathLen (w : Web) (a b : Nat) (n : Nat) : Prop :=
  (∃ l, IsPath w a b l ∧ l.length = n) ∧ ∀ l, IsPath w a b l → n ≤ l.length

theorem shortest_unique {w : Web} {a b m m' : Nat}
    (h : ShortestPathLen w a b m) (h' : ShortestPathLen w a b m') : m = m' := by
  obtain ⟨⟨l, hl, hlen⟩, hmin⟩ := h
  obtain ⟨⟨l', hl', hlen'⟩, hmin'⟩ := h'
  exact le_antisymm (hlen' ▸ hmin l' hl') (hlen ▸ hmin' l hl)

theorem shortest_pos {w : Web} {a b m : Nat} (h : ShortestPathLen w a b m) :
    1 ≤ m := by
  obtain ⟨⟨l, hl, hlen⟩, _⟩ := h
  rcases l with _ | ⟨x, xs⟩
  · exact absurd rfl hl.1.1
  · rw [← hlen]
    simp

theorem shortest_exists {w : Web} {a b : Nat} (h : Reaches w a b) :
    ∃ D, ShortestPathLen w a b D := by
  have hne : {n | ∃ l, IsPath w a b l ∧ l.length = n}.Nonempty := by
    obtain ⟨l, hl⟩ := h
    exact ⟨l.length, l, hl, rfl⟩
  refine ⟨sInf {n | ∃ l, IsPath w a b l ∧ l.length = n}, Nat.sInf_mem hne, ?_⟩
  intro l hl
  exact Nat.sInf_le ⟨l, hl, rfl⟩

theorem isPath_src_isNode {w : Web} {a b : Nat} {l : List Nat}
    (h : IsPath w a b l) : w.isNode a = true := by
  obtain ⟨⟨hne, hmem, _⟩, hh, _⟩ := h
  exact hmem a (List.mem_of_mem_head? (by rw [hh]; exact rfl))

theorem isPath_dst_isNode {w : Web} {a b : Nat} {l : List Nat}
    (h : IsPath w a b l) : w.isNode b = true := by
  obtain ⟨⟨hne, hmem, _⟩, _, hl⟩ := h
  exact hmem b (List.mem_of_getLast?_eq_some hl)

/-- Concatenation of paths through a shared endpoint. -/
theorem isPath_trans {w : Web} {a b c : Nat} {p q : List Nat}
    (hp : IsPath w a b p) (hq : IsPath w b c q) :
    ∃ r, IsPath w a c r ∧ r.length + 1 = p.length + q.length := by
  obtain ⟨⟨hpne, hpmem, hpchain⟩, hph, hpl⟩ := hp
  obtain ⟨⟨hqne, hqmem, hqchain⟩, hqh, hql⟩ := hq
  rcases q with _ | ⟨qh, qt⟩
  · exact absurd rfl hqne
  · rw [List.head?_cons] at hqh
    cases hqh
    rcases qt with _ | ⟨q1, qrest⟩
    · refine ⟨p, ⟨⟨hpne, hpmem, hpchain⟩, hph, ?_⟩, by simp⟩
      rw [List.getLast?_singleton] at hql
      cases hql
      exact hpl
    · refine ⟨p ++ q1 :: qrest, ⟨⟨by simp [hpne], ?_, ?_⟩, ?_, ?_⟩,
        by simp only [List.length_append, List.length_cons]; omega⟩
      · intro u hu
        rcases List.mem_append.mp hu with h | h
        · exact hpmem u h
        · exact hqmem u (List.mem_cons_of_mem b h)
      · rw [List.chain'_append]
        refine ⟨hpchain, (List.chain'_cons.mp hqchain).2, ?_⟩
        intro x hx y hy
        rw [hpl] at hx
        cases hx
        rw [List.head?_cons] at hy
        cases hy
        exact (List.chain'_cons.mp hqchain).1
      · rw [List.head?_append, hph]
        rfl
      · rw [List.getLast?_cons_cons] at hql
        rw [List.getLast?_append, hql]
        rfl

/-- A shortest path of length ≥ 2 steps through a linked neighbor whose own
shortest distance is one less. -/
theorem shortest_step {w : Web} {u dst m : Nat}
    (h : ShortestPathLen w u dst m) (hne : u ≠ dst) :
    ∃ v k, m = k + 2 ∧ w.linkedB u v = true ∧ w.isNode v = true ∧
      ShortestPathLen w v dst (k + 1) := by
  obtain ⟨⟨l, hl, hlen⟩, hmin⟩ := h
  obtain ⟨⟨hlne, hlmem, hlchain⟩, hlh, hll⟩ := hl
  rcases l with _ | ⟨x, xs⟩
  · exact absurd rfl hlne
  · rw [List.head?_cons] at hlh
    cases hlh
    rcases xs with _ | ⟨v, rest⟩
    · exfalso
      rw [List.getLast?_singleton] at hll
      cases hll
      exact hne rfl
    · have hlink : w.linkedB u v = true := (List.chain'_cons.mp hlchain).1
      have hvnode : w.isNode v = true := hlmem v (by simp)
      have htail : IsPath w v dst (v :: rest) := by
        refine ⟨isWalk_tail ⟨hlne, hlmem, hlchain⟩ (by simp), rfl, ?_⟩
        rw [List.getLast?_cons_cons] at hll
        exact hll
      refine ⟨v, rest.length, ?_, hlink, hvnode, ⟨⟨v :: rest, htail, by simp⟩, ?_⟩⟩
      · rw [← hlen]
        simp only [List.length_cons]
      · intro l' hl'
        by_contra hcon
        push_neg at hcon
        obtain ⟨⟨hl'ne, hl'mem, hl'chain⟩, hl'h, hl'l⟩ := hl'
        rcases l' with _ | ⟨y, ys⟩
        · exact absurd rfl hl'ne
        · rw [List.head?_cons] at hl'h
          cases hl'h
          have hnew : IsPath w u dst (u :: v :: ys) := by
            refine ⟨⟨by simp, ?_, ?_⟩, rfl, ?_⟩
            · intro z hz
              rcases List.mem_cons.mp hz with rfl | hz'
              · exact hlmem z (by simp)
              · exact hl'mem z hz'
            · rw [List.chain'_cons]
              exact ⟨hlink, hl'chain⟩
            · rw [List.getLast?_cons_cons]
              exact hl'l
          have := hmin _ hnew
          rw [← hlen] at this
          simp only [List.length_cons] at this hcon
          omega

theorem shortest_refl {w : Web} {b : Nat} (h : w.isNode b = true) :
    ShortestPathLen w b b 1 := by
  refine ⟨⟨[b], ⟨isWalk_singleton h, rfl, rfl⟩, rfl⟩, ?_⟩
  intro l hl
  rcases l with _ | ⟨x, xs⟩
  · exact absurd rfl hl.1.1
  · simp

/-- If `u ≠ dst` is directly linked to `dst`, the shortest distance is
exactly 2. -/
theorem shortest_pair {w : Web} {u dst m : Nat} (hu : w.isNode u = true)
    (hd : w.isNode dst = true) (hlink : w.linkedB u dst = true)
    (hne : u ≠ dst) (h : ShortestPathLen w u dst m) : m = 2 := by
  have hpair : IsPath w u dst [u, dst] := by
    refine ⟨⟨by simp, ?_, ?_⟩, rfl, rfl⟩
    · intro z hz
      rcases List.mem_cons.mp hz with rfl | hz'
      · exact hu
      · rw [List.mem_singleton.mp hz']
        exact hd
    · rw [List.chain'_cons]
      exact ⟨hlink, List.chain'_singleton dst⟩
  have h2 : m ≤ 2 := by
    have := h.2 _ hpair
    simpa using this
  obtain ⟨v, k, hm, _, _, hshort⟩ := shortest_step h hne
  omega

/-! ### Cache coherence and the optimality of `find_route` -/

/-- Coherence of the routing caches: every cached claim "`v` is reachable by
continuing through the port to `ip.1`" names an existing node whose shortest
distance to `v` is exactly one hop less than the claimant's own. -/
def CacheOK (w : Web) : Prop :=
  ∀ u ps ip v, w.getPorts u = some ps → ip ∈ ps → v ∈ ip.2 →
    w.isNode ip.1 = true ∧
    ∃ K, ShortestPathLen w ip.1 v K ∧ ShortestPathLen w u v (K + 1)

/-- All routing caches are empty. -/
def cachesEmpty (w : Web) : Bool :=
  w.nodes.all (fun nps => nps.2.all (fun pr => pr.2.isEmpty))

theorem cacheOK_of_empty {w : Web} (h : cachesEmpty w = true) : CacheOK w := by
  intro u ps ip v hps hip hv
  exfalso
  have h1 := List.all_eq_true.mp h (u, ps) (btGet_mem hps)
  have h2 := List.all_eq_true.mp h1 ip hip
  rw [List.isEmpty_iff] at h2
  rw [h2] at hv
  exact List.not_mem_nil v hv

theorem routeTo_cases {w : Web} {u g n : Nat} (h : w.routeTo u g = some n) :
    ∃ ps ip, w.getPorts u = some ps ∧ ip ∈ ps ∧ ip.1 = n ∧
      (n = g ∨ g ∈ ip.2) := by
  unfold Web.routeTo at h
  cases hg : w.getPorts u with
  | none =>
    rw [hg] at h
    exact Option.noConfusion h
  | some ps =>
    rw [hg] at h
    dsimp only at h
    cases hf : ps.find? (fun ip => ip.1 == g || ip.2.contains g) with
    | none =>
      rw [hf] at h
      exact Option.noConfusion h
    | some ip =>
      rw [hf] at h
      cases h
      have hmem := List.mem_of_find?_eq_some hf
      have hpred := List.find?_some hf
      rw [Bool.or_eq_true] at hpred
      refine ⟨ps, ip, rfl, hmem, rfl, ?_⟩
      rcases hpred with h' | h'
      · exact Or.inl (by simpa using h')
      · exact Or.inr (List.elem_iff.mp h')

theorem spawnChildren_mem_of {w : Web} {u n : Nat} (path : List Nat)
    (hlink : w.linkedB u n = true) (hn : w.isNode n = true) :
    Spider.mk n path ∈ spawnChildren w path u := by
  unfold spawnChildren
  apply List.mem_filterMap.mpr
  refine ⟨n, mem_neighbors.mpr hlink, ?_⟩
  rw [if_pos hn]

theorem spiderOK_isPath {w : Web} {src : Nat} {s : Spider}
    (h : SpiderOK w src s) : IsPath w src s.node (s.path ++ [s.node]) :=
  ⟨h.1, h.2, List.getLast?_concat _⟩

theorem pairwise_of_mem {γ : Type} {R : γ → γ → Prop} {l : List γ}
    (h : ∀ a ∈ l, ∀ b ∈ l, R a b) : l.Pairwise R := by
  induction l with
  | nil => exact List.Pairwise.nil
  | cons x xs ih =>
    refine List.pairwise_cons.mpr ⟨?_, ?_⟩
    · intro b hb
      exact h x (List.mem_cons_self x xs) b (List.mem_cons_of_mem x hb)
    · exact ih (fun a ha b hb =>
        h a (List.mem_cons_of_mem x ha) b (List.mem_cons_of_mem x hb))

/-- The loop invariant of the optimality proof for `find_route` on a web with
coherent caches.  The queue holds walks from `src` in FIFO order: walk
lengths are non-decreasing along the queue and within a band of one; the goal
is unvisited; every visited node was claimed by a walk no longer than any
queued walk; and some queued spider is "on track": it stands, unvisited, at a
node whose shortest remaining distance completes a globally shortest route. -/
def CrawlInv (w : Web) (src dst D : Nat) (q : List Spider)
    (seen : List Nat) : Prop :=
  (∀ s ∈ q, SpiderOK w src s) ∧
  q.Pairwise (fun s t => s.path.length ≤ t.path.length) ∧
  (∀ s ∈ q, ∀ t ∈ q, s.path.length ≤ t.path.length + 1) ∧
  ¬ dst ∈ seen ∧
  (∀ u ∈ seen, ∃ c, IsPath w src u c ∧
    ∀ s ∈ q, c.length ≤ s.path.length + 1) ∧
  (∃ s, s ∈ q ∧ ¬ s.node ∈ seen ∧
    ∃ m, ShortestPathLen w s.node dst m ∧ s.path.length + 1 + m = D + 1)

/-- On a web with coherent routing caches, the crawl loop started in a state
satisfying the invariant returns a globally shortest path from `src` to
`dst`. -/
theorem crawl_master_loop (w : Web) (src dst D : Nat) (hok : CacheOK w)
    (hDfull : ShortestPathLen w src dst D) :
    ∀ (q : List Spider) (seen : List Nat), CrawlInv w src dst D q seen →
      ∃ p, w.crawlLoop dst q seen = some p ∧ IsPath w src dst p ∧
        p.length = D := by
  apply Web.crawlLoop.induct w dst
    (motive := fun q seen => CrawlInv w src dst D q seen →
      ∃ p, w.crawlLoop dst q seen = some p ∧ IsPath w src dst p ∧
        p.length = D)
  · -- empty queue: the invariant's on-track spider is absent
    intro seen hinv
    obtain ⟨s, hsq, _⟩ := hinv.2.2.2.2.2
    exact absurd hsq (List.not_mem_nil s)
  · -- front already visited: it cannot be the on-track spider
    intro seen t rest hts ih hinv
    obtain ⟨hA, hB, hB2, hC, hD, s, hsq, hsunseen, m, hsm, hslen⟩ := hinv
    rw [crawlLoop_seen w dst t rest seen hts]
    apply ih
    refine ⟨fun x hx => hA x (List.mem_cons_of_mem t hx),
      (List.pairwise_cons.mp hB).2,
      fun x hx y hy => hB2 x (List.mem_cons_of_mem t hx)
        y (List.mem_cons_of_mem t hy),
      hC,
      fun u hu => (hD u hu).imp (fun c hc =>
        ⟨hc.1, fun x hx => hc.2 x (List.mem_cons_of_mem t hx)⟩),
      s, ?_, hsunseen, m, hsm, hslen⟩
    rcases List.mem_cons.mp hsq with rfl | h
    · exact absurd hts hsunseen
    · exact h
  · -- front stands on the goal: its walk is a shortest path
    intro seen t rest hts hg hinv
    obtain ⟨hA, hB, hB2, hC, hD, s, hsq, hsunseen, m, hsm, hslen⟩ := hinv
    rw [crawlLoop_goal w dst t rest seen hts hg]
    have htOK := hA t (List.mem_cons_self t rest)
    have htpath : IsPath w src t.node (t.path ++ [t.node]) := spiderOK_isPath htOK
    have htpath2 : IsPath w src dst (t.path ++ [t.node]) :=
      ⟨htpath.1, htpath.2.1, by rw [List.getLast?_concat, hg]⟩
    refine ⟨t.path ++ [t.node], rfl, htpath2, ?_⟩
    have hge : D ≤ (t.path ++ [t.node]).length := hDfull.2 _ htpath2
    have hLts : t.path.length ≤ s.path.length := by
      rcases List.mem_cons.mp hsq with rfl | h
      · exact le_refl _
      · exact (List.pairwise_cons.mp hB).1 s h
    have hm1 : 1 ≤ m := shortest_pos hsm
    simp only [List.length_append, List.length_singleton] at hge ⊢
    omega
  · -- fast-forward along a cached route
    intro seen t rest hts hg next hroute hn ih hinv
    obtain ⟨hA, hB, hB2, hC, hD, s, hsq, hsunseen, m, hsm, hslen⟩ := hinv
    rw [crawlLoop_ff w dst t rest seen next hts hg hroute hn]
    apply ih
    have htOK := hA t (List.mem_cons_self t rest)
    have htpath : IsPath w src t.node (t.path ++ [t.node]) := spiderOK_isPath htOK
    have htnode : w.isNode t.node = true := isPath_dst_isNode htpath
    have hchildOK : SpiderOK w src ⟨next, t.path ++ [t.node]⟩ :=
      spiderOK_extend htOK (routeTo_linked hroute) hn
    have hBhead : ∀ x ∈ rest, t.path.length ≤ x.path.length :=
      (List.pairwise_cons.mp hB).1
    have hchildlen : (Spider.mk next (t.path ++ [t.node])).path.length
        = t.path.length + 1 := by simp
    -- invariant parts that do not depend on the on-track analysis
    have hA' : ∀ x ∈ rest ++ [Spider.mk next (t.path ++ [t.node])],
        SpiderOK w src x := by
      intro x hx
      rcases List.mem_append.mp hx with h | h
      · exact hA x (List.mem_cons_of_mem t h)
      · rw [List.mem_singleton.mp h]
        exact hchildOK
    have hB' : (rest ++ [Spider.mk next (t.path ++ [t.node])]).Pairwise
        (fun s t => s.path.length ≤ t.path.length) := by
      rw [List.pairwise_append]
      refine ⟨(List.pairwise_cons.mp hB).2, List.pairwise_singleton _ _, ?_⟩
      intro a ha b hb
      rw [List.mem_singleton.mp hb]
      simp only [List.length_append, List.length_singleton]
      exact hB2 a (List.mem_cons_of_mem t ha) t (List.mem_cons_self t rest)
    have hB2' : ∀ a ∈ rest ++ [Spider.mk next (t.path ++ [t.node])],
        ∀ b ∈ rest ++ [Spider.mk next (t.path ++ [t.node])],
        a.path.length ≤ b.path.length + 1 := by
      intro a ha b hb
      rcases List.mem_append.mp ha with ha' | ha' <;>
        rcases List.mem_append.mp hb with hb' | hb'
      · exact hB2 a (List.mem_cons_of_mem t ha') b (List.mem_cons_of_mem t hb')
      · rw [List.mem_singleton.mp hb']
        simp only [List.length_append, List.length_singleton]
        have := hB2 a (List.mem_cons_of_mem t ha') t (List.mem_cons_self t rest)
        omega
      · rw [List.mem_singleton.mp ha']
        simp only [List.length_append, List.length_singleton]
        have := hBhead b hb'
        omega
      · rw [List.mem_singleton.mp ha', List.mem_singleton.mp hb']
        omega
    have hC' : ¬ dst ∈ nsInsert t.node seen := by
      intro hmem
      rcases (nsInsert_mem t.node seen dst).mp hmem with h | h
      · exact hg h.symm
      · exact hC h
    have hD' : ∀ u ∈ nsInsert t.node seen, ∃ c, IsPath w src u c ∧
        ∀ x ∈ rest ++ [Spider.mk next (t.path ++ [t.node])],
          c.length ≤ x.path.length + 1 := by
      intro u hu
      rcases (nsInsert_mem t.node seen u).mp hu with rfl | h
      · refine ⟨t.path ++ [t.node], htpath, ?_⟩
        intro x hx
        rcases List.mem_append.mp hx with h' | h'
        · simp only [List.length_append, List.length_singleton]
          exact Nat.succ_le_succ (hBhead x h')
        · rw [List.mem_singleton.mp h']
          simp only [List.length_append, List.length_singleton]
          omega
      · obtain ⟨c, hc1, hc2⟩ := hD u h
        refine ⟨c, hc1, ?_⟩
        intro x hx
        rcases List.mem_append.mp hx with h' | h'
        · exact hc2 x (List.mem_cons_of_mem t h')
        · rw [List.mem_singleton.mp h']
          simp only [List.length_append, List.length_singleton]
          have := hc2 t (List.mem_cons_self t rest)
          omega
    by_cases hts' : s.node = t.node
    · -- the on-track spider stood where the front stands: hand the role to
      -- the fast-forward child
      have hshort_t : ShortestPathLen w t.node dst m := hts' ▸ hsm
      have hLts : t.path.length ≤ s.path.length := by
        rcases List.mem_cons.mp hsq with rfl | h
        · exact le_refl _
        · exact hBhead s h
      have hLst : s.path.length ≤ t.path.length := by
        obtain ⟨pm, hpm, hpmlen⟩ := hshort_t.1
        obtain ⟨r, hr, hrlen⟩ := isPath_trans htpath hpm
        have := hDfull.2 r hr
        simp only [List.length_append, List.length_singleton] at hrlen
        omega
      obtain ⟨ps, ip, hps, hip, hipn, hcase⟩ := routeTo_cases hroute
      rcases hcase with hnext_dst | hcached
      · -- the port key is the goal itself: the child stands on the goal
        subst hnext_dst
        have hm2 : m = 2 :=
          shortest_pair htnode hn (routeTo_linked hroute) hg hshort_t
        refine ⟨hA', hB', hB2', hC', hD',
          ⟨next, t.path ++ [t.node]⟩,
          List.mem_append_right _ (List.mem_singleton.mpr rfl), hC', 1,
          shortest_refl hn, ?_⟩
        simp only [List.length_append, List.length_singleton]
        omega
      · -- a genuinely cached claim: coherence gives the distance decrease
        obtain ⟨hnnode, K, hK1, hK2⟩ := hok t.node ps ip dst hps hip hcached
        have hmK : m = K + 1 := shortest_unique hshort_t hK2
        rw [hipn] at hK1
        have hnotseen : ¬ next ∈ nsInsert t.node seen := by
          intro hmem
          rcases (nsInsert_mem t.node seen next).mp hmem with rfl | h
          · have := shortest_unique hK1 hshort_t
            omega
          · obtain ⟨c, hc1, hc2⟩ := hD next h
            obtain ⟨pm, hpm, hpmlen⟩ := hK1.1
            obtain ⟨r, hr, hrlen⟩ := isPath_trans hc1 hpm
            have hDle := hDfull.2 r hr
            have hct := hc2 t (List.mem_cons_self t rest)
            omega
        refine ⟨hA', hB', hB2', hC', hD',
          ⟨next, t.path ++ [t.node]⟩,
          List.mem_append_right _ (List.mem_singleton.mpr rfl), hnotseen, K,
          hK1, ?_⟩
        simp only [List.length_append, List.length_singleton]
        omega
    · -- the on-track spider is elsewhere in the queue and survives
      have hsrest : s ∈ rest := by
        rcases List.mem_cons.mp hsq with rfl | h
        · exact absurd rfl hts'
        · exact h
      have hsunseen' : ¬ s.node ∈ nsInsert t.node seen := by
        intro hmem
        rcases (nsInsert_mem t.node seen s.node).mp hmem with h | h
        · exact hts' h
        · exact hsunseen h
      exact ⟨hA', hB', hB2', hC', hD',
        s, List.mem_append_left _ hsrest, hsunseen', m, hsm, hslen⟩
  · -- fast-forward to a vanished node: impossible under cache coherence
    intro seen t rest hts hg next hroute hn ih hinv
    exfalso
    obtain ⟨ps, ip, hps, hip, hipn, hcase⟩ := routeTo_cases hroute
    rcases hcase with hnext_dst | hcached
    · subst hnext_dst
      obtain ⟨l, hl, _⟩ := hDfull.1
      exact hn (isPath_dst_isNode hl)
    · obtain ⟨hnnode, _⟩ := hok t.node ps ip dst hps hip hcached
      rw [hipn] at hnnode
      exact hn hnnode
  · -- no route known: branch to every surviving neighbor
    intro seen t rest hts hg hroute ih hinv
    obtain ⟨hA, hB, hB2, hC, hD, s, hsq, hsunseen, m, hsm, hslen⟩ := hinv
    rw [crawlLoop_spawn w dst t rest seen hts hg hroute]
    apply ih
    have htOK := hA t (List.mem_cons_self t rest)
    have htpath : IsPath w src t.node (t.path ++ [t.node]) := spiderOK_isPath htOK
    have htnode : w.isNode t.node = true := isPath_dst_isNode htpath
    have hBhead : ∀ x ∈ rest, t.path.length ≤ x.path.length :=
      (List.pairwise_cons.mp hB).1
    have hchildlen : ∀ c ∈ spawnChildren w (t.path ++ [t.node]) t.node,
        c.path.length = t.path.length + 1 := by
      intro c hc
      rw [(mem_spawnChildren hc).1]
      simp
    have hA' : ∀ x ∈ rest ++ spawnChildren w (t.path ++ [t.node]) t.node,
        SpiderOK w src x := by
      intro x hx
      rcases List.mem_append.mp hx with h | h
      · exact hA x (List.mem_cons_of_mem t h)
      · obtain ⟨hpath, hvalid, hlink⟩ := mem_spawnChildren h
        have := spiderOK_extend htOK hlink hvalid
        rcases x with ⟨xn, xp⟩
        cases hpath
        exact this
    have hB' : (rest ++ spawnChildren w (t.path ++ [t.node]) t.node).Pairwise
        (fun s t => s.path.length ≤ t.path.length) := by
      rw [List.pairwise_append]
      refine ⟨(List.pairwise_cons.mp hB).2, ?_, ?_⟩
      · apply pairwise_of_mem
        intro a ha b hb
        rw [hchildlen a ha, hchildlen b hb]
      · intro a ha b hb
        rw [hchildlen b hb]
        exact hB2 a (List.mem_cons_of_mem t ha) t (List.mem_cons_self t rest)
    have hB2' : ∀ a ∈ rest ++ spawnChildren w (t.path ++ [t.node]) t.node,
        ∀ b ∈ rest ++ spawnChildren w (t.path ++ [t.node]) t.node,
        a.path.length ≤ b.path.length + 1 := by
      intro a ha b hb
      rcases List.mem_append.mp ha with ha' | ha' <;>
        rcases List.mem_append.mp hb with hb' | hb'
      · exact hB2 a (List.mem_cons_of_mem t ha') b (List.mem_cons_of_mem t hb')
      · rw [hchildlen b hb']
        have := hB2 a (List.mem_cons_of_mem t ha') t (List.mem_cons_self t rest)
        omega
      · rw [hchildlen a ha']
        have := hBhead b hb'
        omega
      · rw [hchildlen a ha', hchildlen b hb']
        omega
    have hC' : ¬ dst ∈ nsInsert t.node seen := by
      intro hmem
      rcases (nsInsert_mem t.node seen dst).mp hmem with h | h
      · exact hg h.symm
      · exact hC h
    have hD' : ∀ u ∈ nsInsert t.node seen, ∃ c, IsPath w src u c ∧
        ∀ x ∈ rest ++ spawnChildren w (t.path ++ [t.node]) t.node,
          c.length ≤ x.path.length + 1 := by
      intro u hu
      rcases (nsInsert_mem t.node seen u).mp hu with rfl | h
      · refine ⟨t.path ++ [t.node], htpath, ?_⟩
        intro x hx
        rcases List.mem_append.mp hx with h' | h'
        · simp only [List.length_append, List.length_singleton]
          exact Nat.succ_le_succ (hBhead x h')
        · rw [hchildlen x h']
          simp only [List.length_append, List.length_singleton]
          omega
      · obtain ⟨c, hc1, hc2⟩ := hD u h
        refine ⟨c, hc1, ?_⟩
        intro x hx
        rcases List.mem_append.mp hx with h' | h'
        · exact hc2 x (List.mem_cons_of_mem t h')
        · rw [hchildlen x h']
          have := hc2 t (List.mem_cons_self t rest)
          omega
    by_cases hts' : s.node = t.node
    · -- hand the on-track role to the child along a shortest continuation
      have hshort_t : ShortestPathLen w t.node dst m := hts' ▸ hsm
      have hLts : t.path.length ≤ s.path.length := by
        rcases List.mem_cons.mp hsq with rfl | h
        · exact le_refl _
        · exact hBhead s h
      have hLst : s.path.length ≤ t.path.length := by
        obtain ⟨pm, hpm, hpmlen⟩ := hshort_t.1
        obtain ⟨r, hr, hrlen⟩ := isPath_trans htpath hpm
        have := hDfull.2 r hr
        simp only [List.length_append, List.length_singleton] at hrlen
        omega
      obtain ⟨v, k, hmk, hlinkv, hvnode, hshv⟩ := shortest_step hshort_t hg
      have hchildmem : Spider.mk v (t.path ++ [t.node]) ∈
          spawnChildren w (t.path ++ [t.node]) t.node :=
        spawnChildren_mem_of _ hlinkv hvnode
      have hvnotseen : ¬ v ∈ nsInsert t.node seen := by
        intro hmem
        rcases (nsInsert_mem t.node seen v).mp hmem with rfl | h
        · have := shortest_unique hshv hshort_t
          omega
        · obtain ⟨c, hc1, hc2⟩ := hD v h
          obtain ⟨pm, hpm, hpmlen⟩ := hshv.1
          obtain ⟨r, hr, hrlen⟩ := isPath_trans hc1 hpm
          have hDle := hDfull.2 r hr
          have hct := hc2 t (List.mem_cons_self t rest)
          omega
      refine ⟨hA', hB', hB2', hC', hD', ⟨v, t.path ++ [t.node]⟩,
        List.mem_append_right _ hchildmem, hvnotseen, k + 1, hshv, ?_⟩
      simp only [List.length_append, List.length_singleton]
      omega
    · -- the on-track spider is elsewhere in the queue and survives
      have hsrest : s ∈ rest := by
        rcases List.mem_cons.mp hsq with rfl | h
        · exact absurd rfl hts'
        · exact h
      have hsunseen' : ¬ s.node ∈ nsInsert t.node seen := by
        intro hmem
        rcases (nsInsert_mem t.node seen s.node).mp hmem with h | h
        · exact hts' h
        · exact hsunseen h
      exact ⟨hA', hB', hB2', hC', hD',
        s, List.mem_append_left _ hsrest, hsunseen', m, hsm, hslen⟩

/-- Master theorem: on a web with coherent routing caches, `find_route`
between connected nodes returns a path of globally minimal length. -/
theorem findRoute_shortest (w : Web) (src dst : Nat) (hok : CacheOK w)
    (hreach : Reaches w src dst) :
    ∃ p, w.findRoute src dst = some p ∧ IsPath w src dst p ∧
      ∀ l, IsPath w src dst l → p.length ≤ l.length := by
  obtain ⟨D, hD⟩ := shortest_exists hreach
  have hsrc : w.isNode src = true := by
    obtain ⟨l, hl⟩ := hreach
    exact isPath_src_isNode hl
  unfold Web.findRoute
  rw [if_pos hsrc]
  obtain ⟨p, hp, hpath, hlen⟩ := crawl_master_loop w src dst D hok hD
    [⟨src, []⟩] []
    ⟨fun s hs => by
        rw [List.mem_singleton.mp hs]
        exact ⟨isWalk_singleton hsrc, rfl⟩,
      List.pairwise_singleton _ _,
      fun s hs t ht => by
        rw [List.mem_singleton.mp hs, List.mem_singleton.mp ht]
        omega,
      List.not_mem_nil dst,
      fun u hu => absurd hu (List.not_mem_nil u),
      ⟨⟨src, []⟩, List.mem_singleton.mpr rfl, List.not_mem_nil src, D, hD,
        by simp; omega⟩⟩
  refine ⟨p, hp, hpath, ?_⟩
  intro l hl
  rw [hlen]
  exact hD.2 l hl

/-- C1 (amended: the claim as stated fails on webs whose routing caches hold
stale data, see `C1_counterexample_poisoned`; it holds for webs whose routing
caches are empty): on a web with empty routing caches, for distinct connected
`src` and `dst`, `find_route` returns a path from `src` to `dst` (consecutive
entries linked) of minimal node count; the search is deterministic and
tie-breaks toward lower identifiers — on the diamond graph with two shortest
routes it returns the one through the smaller identifier, and on the 4-node
path graph `find_route(a, d)` returns exactly `[a, b, c, d]`.
(`Web::find_route` and `Spider::crawl_seq`, `src/rust/src/web.rs:174-203,
576-625`.) -/
theorem C1_bfs_shortest (w : Web) (src dst : Nat)
    (hempty : cachesEmpty w = true) (hne : src ≠ dst)
    (hconn : Reaches w src dst) :
    (∃ p, w.findRoute src dst = some p ∧ IsPath w src dst p ∧
      ∀ l, IsPath w src dst l → p.length ≤ l.length) ∧
    pathWeb.findRoute 1 4 = some [1, 2, 3, 4] ∧
    diamondWeb.findRoute 1 4 = some [1, 2, 4] :=
  ⟨findRoute_shortest w src dst (cacheOK_of_empty hempty) hconn,
    pathWeb_route, diamondWeb_route⟩

/-- Witness for C1 on the 4-node path graph. -/
theorem C1_bfs_shortest_witness :
    cachesEmpty pathWeb = true ∧ (1 : Nat) ≠ 4 ∧ Reaches pathWeb 1 4 ∧
    (∃ p, pathWeb.findRoute 1 4 = some p ∧ IsPath pathWeb 1 4 p ∧
      ∀ l, IsPath pathWeb 1 4 l → p.length ≤ l.length) :=
  ⟨by decide, by decide,
   ⟨[1, 2, 3, 4],
     ⟨by decide, by decide,
       by simp only [List.chain'_cons, List.chain'_singleton]; decide⟩,
     by decide, by decide⟩,
   (C1_bfs_shortest pathWeb 1 4 (by decide) (by decide)
     ⟨[1, 2, 3, 4],
       ⟨by decide, by decide,
         by simp only [List.chain'_cons, List.chain'_singleton]; decide⟩,
       by decide, by decide⟩).1⟩

/-! ### C2: cache-assisted search agrees with a fresh search -/

theorem bool_eq_of_iff {a b : Bool} (h : a = true ↔ b = true) : a = b := by
  cases a <;> cases b <;> simp_all

theorem btGet_btModify_ne {κ β : Type} [LinearOrder κ] {k x : κ} (d : β)
    (upd : β → β) (l : List (κ × β)) (hne : x ≠ k) :
    btGet x (btModify k d upd l) = btGet x l := by
  induction l with
  | nil => simp [btModify_nil, btGet, hne]
  | cons kv rest ih =>
    obtain ⟨k', v⟩ := kv
    rcases lt_trichotomy k k' with h | h | h
    · rw [btModify_cons_lt d upd v rest h, btGet, if_neg hne]
    · subst h
      rw [btModify_cons_eq]
      simp only [btGet]
      rw [if_neg hne, if_neg hne]
    · rw [btModify_cons_gt d upd v rest h]
      simp only [btGet]
      by_cases hx : x = k'
      · rw [if_pos hx, if_pos hx]
      · rw [if_neg hx, if_neg hx, ih]

theorem btGet_btModify_eq {κ β : Type} [LinearOrder κ] {k : κ} (d : β)
    (upd : β → β) {l : List (κ × β)} (hs : SortedFst l) {v : β}
    (hget : btGet k l = some v) :
    btGet k (btModify k d upd l) = some (upd v) := by
  induction l with
  | nil => exact absurd hget (by simp [btGet])
  | cons kv rest ih =>
    obtain ⟨k', v'⟩ := kv
    rcases lt_trichotomy k k' with h1 | h1 | h1
    · exfalso
      have hrest : btGet k rest = none :=
        btGet_none_of_forall_lt (fun e he =>
          lt_trans h1 ((List.pairwise_cons.mp hs).1 e he))
      rw [btGet, if_neg (ne_of_lt h1), hrest] at hget
      exact Option.noConfusion hget
    · subst h1
      rw [btGet, if_pos rfl] at hget
      cases hget
      rw [btModify_cons_eq, btGet, if_pos rfl]
    · rw [btGet, if_neg (ne_of_gt h1)] at hget
      rw [btModify_cons_gt d upd v' rest h1, btGet, if_neg (ne_of_gt h1)]
      exact ih (List.pairwise_cons.mp hs).2 hget

theorem mem_btModify_cases {κ β : Type} [LinearOrder κ] {k : κ} {d : β}
    {upd : β → β} {l : List (κ × β)} {r : κ × β}
    (hr : r ∈ btModify k d upd l) :
    r ∈ l ∨ (r.1 = k ∧ (r.2 = upd d ∨ ∃ v, (k, v) ∈ l ∧ r.2 = upd v)) := by
  induction l with
  | nil =>
    rw [btModify_nil] at hr
    rw [List.mem_singleton.mp hr]
    exact Or.inr ⟨rfl, Or.inl rfl⟩
  | cons kv rest ih =>
    obtain ⟨k', v⟩ := kv
    rcases lt_trichotomy k k' with h | h | h
    · rw [btModify_cons_lt d upd v rest h] at hr
      rcases List.mem_cons.mp hr with rfl | h'
      · exact Or.inr ⟨rfl, Or.inl rfl⟩
      · exact Or.inl h'
    · subst h
      rw [btModify_cons_eq] at hr
      rcases List.mem_cons.mp hr with rfl | h'
      · exact Or.inr ⟨rfl, Or.inr ⟨v, List.mem_cons_self _ _, rfl⟩⟩
      · exact Or.inl (List.mem_cons_of_mem _ h')
    · rw [btModify_cons_gt d upd v rest h] at hr
      rcases List.mem_cons.mp hr with rfl | h'
      · exact Or.inl (List.mem_cons_self _ _)
      · rcases ih h' with h'' | ⟨h1, h2⟩
        · exact Or.inl (List.mem_cons_of_mem _ h'')
        · refine Or.inr ⟨h1, ?_⟩
          rcases h2 with h2 | ⟨v', hv', he⟩
          · exact Or.inl h2
          · exact Or.inr ⟨v', List.mem_cons_of_mem _ hv', he⟩

theorem nsExtend_mem (s adds : List Nat) (x : Nat) :
    x ∈ nsExtend s adds ↔ x ∈ s ∨ x ∈ adds := by
  induction adds generalizing s with
  | nil => simp [nsExtend]
  | cons a as ih =>
    show x ∈ nsExtend (nsInsert a s) as ↔ _
    rw [ih (nsInsert a s), nsInsert_mem]
    simp only [List.mem_cons]
    tauto

theorem btGet_map_snd {κ β γ : Type} [LinearOrder κ] (g : β → γ) (k : κ)
    (l : List (κ × β)) :
    btGet k (l.map (fun p => (p.1, g p.2))) = (btGet k l).map g := by
  induction l with
  | nil => rfl
  | cons kv rest ih =>
    obtain ⟨k', v⟩ := kv
    simp only [List.map_cons]
    by_cases h : k = k'
    · subst h
      rw [btGet, if_pos rfl, btGet, if_pos rfl]
      rfl
    · rw [btGet, if_neg h, btGet, if_neg h, ih]

/-- The `BTreeMap` representation invariant: node and port keys are strictly
sorted. -/
def WebSorted (w : Web) : Prop :=
  SortedFst w.nodes ∧ ∀ nps ∈ w.nodes, SortedFst nps.2

/-- Link symmetry: every port has a reverse port.  The public `Web` API
(`create_link`, `remove_link`, `remove`) only creates and destroys links in
both directions at once, and the route-marking of `find_all_routes` touches
only existing ports, so every reachable `Web` value satisfies this. -/
def WebSym (w : Web) : Prop :=
  ∀ nps ∈ w.nodes, ∀ pr ∈ nps.2, w.linkedB pr.1 nps.1 = true

/-- Two webs with the same nodes and the same links. -/
def sameTop (w w' : Web) : Prop :=
  (∀ x, w'.isNode x = w.isNode x) ∧ ∀ x y, w'.linkedB x y = w.linkedB x y

theorem sameTop_refl (w : Web) : sameTop w w := ⟨fun _ => rfl, fun _ _ => rfl⟩

theorem sameTop_symm {w w' : Web} (h : sameTop w w') : sameTop w' w :=
  ⟨fun x => (h.1 x).symm, fun x y => (h.2 x y).symm⟩

theorem sameTop_trans {w w' w'' : Web} (h1 : sameTop w w')
    (h2 : sameTop w' w'') : sameTop w w'' :=
  ⟨fun x => (h2.1 x).trans (h1.1 x), fun x y => (h2.2 x y).trans (h1.2 x y)⟩

theorem isWalk_of_sameTop {w w' : Web} (h : sameTop w w') {l : List Nat}
    (hw : IsWalk w l) : IsWalk w' l := by
  obtain ⟨hne, hmem, hchain⟩ := hw
  refine ⟨hne, fun u hu => ?_, ?_⟩
  · rw [h.1 u]
    exact hmem u hu
  · exact hchain.imp (fun a b hab => by rw [h.2 a b]; exact hab)

theorem isPath_of_sameTop {w w' : Web} (h : sameTop w w') {a b : Nat}
    {l : List Nat} (hp : IsPath w a b l) : IsPath w' a b l :=
  ⟨isWalk_of_sameTop h hp.1, hp.2.1, hp.2.2⟩

theorem shortest_of_sameTop {w w' : Web} (h : sameTop w w') {a b D : Nat}
    (hs : ShortestPathLen w a b D) : ShortestPathLen w' a b D := by
  obtain ⟨⟨l, hl, hlen⟩, hmin⟩ := hs
  exact ⟨⟨l, isPath_of_sameTop h hl, hlen⟩,
    fun l' hl' => hmin l' (isPath_of_sameTop (sameTop_symm h) hl')⟩

theorem clearRoutes_getPorts (w : Web) (x : Nat) :
    (w.clearRoutes).getPorts x =
      (w.getPorts x).map
        (fun ps => ps.map (fun pr => (pr.1, ([] : List Nat)))) := by
  unfold Web.getPorts Web.clearRoutes
  exact btGet_map_snd _ x w.nodes

theorem clearRoutes_sameTop (w : Web) : sameTop w w.clearRoutes := by
  constructor
  · intro x
    unfold Web.isNode
    rw [clearRoutes_getPorts]
    cases w.getPorts x <;> rfl
  · intro x y
    unfold Web.linkedB
    rw [clearRoutes_getPorts]
    cases hg : w.getPorts x with
    | none => rfl
    | some ps =>
      show ((ps.map fun pr => (pr.1, ([] : List Nat))).map
        Prod.fst).contains y = (ps.map Prod.fst).contains y
      rw [List.map_map]
      rfl

theorem clearRoutes_sorted {w : Web} (h : WebSorted w) :
    WebSorted w.clearRoutes := by
  obtain ⟨h1, h2⟩ := h
  constructor
  · show SortedFst (w.nodes.map _)
    unfold SortedFst at h1 ⊢
    rw [List.pairwise_map]
    exact h1.imp (fun hab => hab)
  · intro nps hmem
    obtain ⟨orig, ho, rfl⟩ := List.mem_map.mp hmem
    show SortedFst (orig.2.map _)
    unfold SortedFst
    rw [List.pairwise_map]
    exact (h2 orig ho).imp (fun hab => hab)

theorem clearRoutes_cachesEmpty (w : Web) :
    cachesEmpty w.clearRoutes = true := by
  unfold cachesEmpty Web.clearRoutes
  rw [List.all_eq_true]
  intro nps hmem
  obtain ⟨orig, _, rfl⟩ := List.mem_map.mp hmem
  rw [List.all_eq_true]
  intro pr hpr
  obtain ⟨opr, _, rfl⟩ := List.mem_map.mp hpr
  rfl

theorem linked_onedir {w : Web} (h : WebSym w) {x y : Nat}
    (hxy : w.linkedB x y = true) : w.linkedB y x = true := by
  unfold Web.linkedB at hxy
  cases hg : w.getPorts x with
  | none =>
    rw [hg] at hxy
    exact Bool.noConfusion hxy
  | some ps =>
    rw [hg] at hxy
    dsimp only at hxy
    have hy : y ∈ ps.map Prod.fst := List.elem_iff.mp hxy
    obtain ⟨pr, hpr, rfl⟩ := List.mem_map.mp hy
    exact h (x, ps) (btGet_mem (show btGet x w.nodes = some ps from hg)) pr hpr

theorem linkedB_symm {w : Web} (h : WebSym w) (x y : Nat) :
    w.linkedB x y = w.linkedB y x :=
  bool_eq_of_iff ⟨fun hx => linked_onedir h hx, fun hy => linked_onedir h hy⟩

theorem isPath_suffix {w : Web} {a b v : Nat} {pre post : List Nat}
    (h : IsPath w a b (pre ++ v :: post)) : IsPath w v b (v :: post) := by
  obtain ⟨⟨hne, hmem, hchain⟩, hh, hl⟩ := h
  refine ⟨⟨by simp, ?_, ?_⟩, rfl, ?_⟩
  · intro u hu
    exact hmem u (List.mem_append.mpr (Or.inr hu))
  · exact hchain.suffix ⟨pre, rfl⟩
  · rw [List.getLast?_append] at hl
    cases hx : (v :: post).getLast? with
    | none => simp at hx
    | some z =>
      rw [hx] at hl
      exact hl

theorem isPath_prefix {w : Web} {a b v : Nat} {pre post : List Nat}
    (h : IsPath w a b (pre ++ v :: post)) : IsPath w a v (pre ++ [v]) := by
  obtain ⟨⟨hne, hmem, hchain⟩, hh, hl⟩ := h
  refine ⟨⟨by simp, ?_, ?_⟩, ?_, List.getLast?_concat _⟩
  · intro u hu
    rcases List.mem_append.mp hu with h' | h'
    · exact hmem u (List.mem_append.mpr (Or.inl h'))
    · rw [List.mem_singleton.mp h']
      exact hmem v (List.mem_append.mpr (Or.inr (List.mem_cons_self _ _)))
  · refine hchain.prefix ⟨post, ?_⟩
    simp
  · rcases pre with _ | ⟨p0, ps⟩
    · exact hh
    · exact hh

/-- A prefix of a minimal-length route is itself minimal to its cut point. -/
theorem shortest_of_prefix {w : Web} {a b D : Nat}
    (hmin : ∀ l, IsPath w a b l → D ≤ l.length) {pre post : List Nat}
    {v : Nat} (hp : IsPath w a b (pre ++ v :: post))
    (hlen : (pre ++ v :: post).length = D) :
    ShortestPathLen w a v (pre.length + 1) := by
  refine ⟨⟨pre ++ [v], isPath_prefix hp, by simp⟩, ?_⟩
  intro q hq
  obtain ⟨r, hr, hrlen⟩ := isPath_trans hq (isPath_suffix hp)
  have h1 := hmin r hr
  have h2 : (pre ++ v :: post).length = pre.length + post.length + 1 := by
    simp only [List.length_append, List.length_cons]
    omega
  have h3 : (v :: post).length = post.length + 1 := by simp
  omega

/-- Dropping the first node of a minimal route yields a minimal route from
the second node. -/
theorem shortest_tail_min {w : Web} {a b D : Nat}
    (hmin : ∀ l, IsPath w a b l → D ≤ l.length) {x y : Nat} {rest : List Nat}
    (hp : IsPath w a b (x :: y :: rest))
    (hlen : (x :: y :: rest).length = D) :
    IsPath w y b (y :: rest) ∧ (y :: rest).length = D - 1 ∧
      ∀ l, IsPath w y b l → D - 1 ≤ l.length := by
  have htail : IsPath w y b (y :: rest) :=
    isPath_suffix (show IsPath w a b ([x] ++ y :: rest) from hp)
  have hx : x = a := by
    have h := hp.2.1
    rw [List.head?_cons] at h
    exact Option.some.inj h
  subst hx
  have hlink : w.linkedB x y = true := (List.chain'_cons.mp hp.1.2.2).1
  have hxy : IsPath w x y [x, y] := by
    refine ⟨⟨by simp, ?_, ?_⟩, rfl, rfl⟩
    · intro u hu
      rcases List.mem_cons.mp hu with rfl | hu'
      · exact hp.1.2.1 u (List.mem_cons_self _ _)
      · rw [List.mem_singleton.mp hu']
        exact hp.1.2.1 y (List.mem_cons_of_mem _ (List.mem_cons_self _ _))
    · exact List.chain'_pair.mpr hlink
  refine ⟨htail, ?_, ?_⟩
  · simp only [List.length_cons] at hlen ⊢
    omega
  · intro l hl
    obtain ⟨r, hr, hrlen⟩ := isPath_trans hxy hl
    have h1 := hmin r hr
    simp only [List.length_cons, List.length_nil] at hrlen hlen
    omega

/-- Every hop of the list records only exact-distance claims about the later
nodes: the geodesic property that `mark_path` needs in order to keep the
routing caches coherent. -/
def Geo (w : Web) : List Nat → Prop
  | current :: next :: rest =>
    (∀ v ∈ rest, ∃ K, ShortestPathLen w next v K ∧
      ShortestPathLen w current v (K + 1)) ∧
    Geo w (next :: rest)
  | _ => True

/-- Minimal-length routes are geodesic at every hop. -/
theorem geo_of_shortest {w : Web} {b : Nat} :
    ∀ (p : List Nat) (a : Nat), IsPath w a b p →
      (∀ l, IsPath w a b l → p.length ≤ l.length) → Geo w p := by
  intro p
  induction p with
  | nil => intro a _ _; trivial
  | cons current tail ih =>
    rcases tail with _ | ⟨next, rest⟩
    · intro a _ _; trivial
    · intro a hp hmin
      have ha : current = a := by
        have h := hp.2.1
        rw [List.head?_cons] at h
        exact Option.some.inj h
      subst ha
      obtain ⟨htail, htlen, htmin⟩ :=
        shortest_tail_min hmin hp rfl
      constructor
      · intro v hv
        obtain ⟨mid, post, hsplit⟩ := List.append_of_mem hv
        have hp1 : IsPath w current b ((current :: next :: mid) ++ v :: post) := by
          rw [hsplit] at hp
          exact hp
        have h1 := shortest_of_prefix hmin hp1 (by rw [hsplit]; exact rfl)
        have hp2 : IsPath w next b ((next :: mid) ++ v :: post) := by
          rw [hsplit] at htail
          exact htail
        have h2 := shortest_of_prefix htmin hp2 (by rw [← htlen, hsplit]; exact rfl)
        refine ⟨mid.length + 2, ?_, ?_⟩
        · have he : (next :: mid).length + 1 = mid.length + 2 := by
            simp only [List.length_cons]
          rw [he] at h2
          exact h2
        · have he : (current :: next :: mid).length + 1 = mid.length + 2 + 1 := by
            simp only [List.length_cons]
          rw [he] at h1
          exact h1
      · refine ih next htail ?_
        intro l hl
        rw [htlen]
        exact htmin l hl

/-- The single update of one `mark_path` iteration. -/
def markStep (w : Web) (current next : Nat) (rest : List Nat) : Web :=
  { w with
    nodes := btModify current []
      (fun ports => btModify next [] (fun r => nsExtend r rest) ports)
      w.nodes }

theorem markStep_getPorts_ne (w : Web) {x current : Nat} (next : Nat)
    (rest : List Nat) (hne : x ≠ current) :
    (markStep w current next rest).getPorts x = w.getPorts x :=
  btGet_btModify_ne _ _ _ hne

theorem markStep_getPorts_eq {w : Web} {current : Nat} (next : Nat)
    (rest : List Nat) {ps : Ports} (hsort : SortedFst w.nodes)
    (hcur : w.getPorts current = some ps) :
    (markStep w current next rest).getPorts current =
      some (btModify next [] (fun r => nsExtend r rest) ps) :=
  btGet_btModify_eq _ _ hsort hcur

theorem markStep_sameTop {w : Web} {current next : Nat} {rest : List Nat}
    {ps : Ports} (hsort : SortedFst w.nodes)
    (hcur : w.getPorts current = some ps)
    (hnext : next ∈ ps.map Prod.fst) :
    sameTop w (markStep w current next rest) := by
  constructor
  · intro x
    by_cases hx : x = current
    · subst hx
      unfold Web.isNode
      rw [markStep_getPorts_eq next rest hsort hcur, hcur]
      rfl
    · unfold Web.isNode
      rw [markStep_getPorts_ne w next rest hx]
  · intro x y
    by_cases hx : x = current
    · subst hx
      unfold Web.linkedB
      rw [markStep_getPorts_eq next rest hsort hcur, hcur]
      dsimp only
      apply bool_eq_of_iff
      constructor
      · intro hy
        rcases (mem_map_fst_btModify next [] _ ps y).mp
            (List.elem_iff.mp hy) with rfl | h'
        · exact List.elem_iff.mpr hnext
        · exact List.elem_iff.mpr h'
      · intro hy
        exact List.elem_iff.mpr
          ((mem_map_fst_btModify next [] _ ps y).mpr
            (Or.inr (List.elem_iff.mp hy)))
    · unfold Web.linkedB
      rw [markStep_getPorts_ne w next rest hx]

theorem markStep_sorted {w : Web} {current next : Nat} {rest : List Nat}
    (hsort : WebSorted w) : WebSorted (markStep w current next rest) := by
  obtain ⟨h1, h2⟩ := hsort
  constructor
  · exact btModify_sortedFst _ _ _ h1
  · intro nps hmem
    rcases mem_btModify_cases hmem with h' | ⟨hfst, hsnd⟩
    · exact h2 nps h'
    · rcases hsnd with h' | ⟨v, hv, h'⟩
      · rw [h']
        exact btModify_sortedFst _ _ _ List.Pairwise.nil
      · rw [h']
        exact btModify_sortedFst _ _ _ (h2 (current, v) hv)

/-- Cache coherence of `w`, measured against the fixed topology `w0`. -/
def CacheGood (w0 w : Web) : Prop :=
  ∀ u ps ip v, w.getPorts u = some ps → ip ∈ ps → v ∈ ip.2 →
    w0.isNode ip.1 = true ∧
    ∃ K, ShortestPathLen w0 ip.1 v K ∧ ShortestPathLen w0 u v (K + 1)

theorem cacheOK_of_good {w0 w : Web} (hst : sameTop w0 w)
    (hg : CacheGood w0 w) : CacheOK w := by
  intro u ps ip v h1 h2 h3
  obtain ⟨hn, K, hK1, hK2⟩ := hg u ps ip v h1 h2 h3
  refine ⟨?_, K, shortest_of_sameTop hst hK1, shortest_of_sameTop hst hK2⟩
  rw [hst.1 ip.1]
  exact hn

theorem markStep_cacheGood {w0 w : Web} {current next : Nat}
    {rest : List Nat} {ps : Ports} (hg : CacheGood w0 w)
    (hcur : w.getPorts current = some ps) (hsort : SortedFst w.nodes)
    (hnext : w0.isNode next = true)
    (hgeo : ∀ v ∈ rest, ∃ K, ShortestPathLen w0 next v K ∧
      ShortestPathLen w0 current v (K + 1)) :
    CacheGood w0 (markStep w current next rest) := by
  intro u ps' ip v hps' hip hv
  by_cases hu : u = current
  · subst hu
    rw [markStep_getPorts_eq next rest hsort hcur] at hps'
    cases hps'
    rcases mem_btModify_cases hip with h' | ⟨hfst, hsnd⟩
    · exact hg u ps ip v hcur h' hv
    · have hv' : v ∈ ip.2 := hv
      rcases hsnd with h2 | ⟨r, hr, h2⟩
      · rw [h2] at hv'
        rcases (nsExtend_mem [] rest v).mp hv' with h3 | h3
        · exact absurd h3 (List.not_mem_nil v)
        · obtain ⟨K, hK1, hK2⟩ := hgeo v h3
          rw [hfst]
          exact ⟨hnext, K, hK1, hK2⟩
      · rw [h2] at hv'
        rcases (nsExtend_mem r rest v).mp hv' with h3 | h3
        · have h4 := hg u ps (next, r) v hcur hr h3
          rw [hfst]
          exact h4
        · obtain ⟨K, hK1, hK2⟩ := hgeo v h3
          rw [hfst]
          exact ⟨hnext, K, hK1, hK2⟩
  · rw [markStep_getPorts_ne w next rest hu] at hps'
    exact hg u ps' ip v hps' hip hv

/-- `mark_path` along a geodesic walk keeps the topology, the sortedness and
the cache coherence of the web. -/
theorem markPath_good {w0 : Web} :
    ∀ (p : List Nat) (w : Web), IsWalk w0 p → Geo w0 p →
      sameTop w0 w → WebSorted w → CacheGood w0 w →
      sameTop w0 (w.markPath p) ∧ WebSorted (w.markPath p) ∧
        CacheGood w0 (w.markPath p) := by
  intro p
  induction p with
  | nil => intro w _ _ h1 h2 h3; exact ⟨h1, h2, h3⟩
  | cons current tail ih =>
    rcases tail with _ | ⟨next, rest⟩
    · intro w _ _ h1 h2 h3; exact ⟨h1, h2, h3⟩
    · intro w hwalk hgeo h1 h2 h3
      have hcur0 : w0.isNode current = true :=
        hwalk.2.1 current (List.mem_cons_self _ _)
      have hnext0 : w0.isNode next = true :=
        hwalk.2.1 next (List.mem_cons_of_mem _ (List.mem_cons_self _ _))
      have hlink0 : w0.linkedB current next = true :=
        (List.chain'_cons.mp hwalk.2.2).1
      have hcurw : w.isNode current = true := by
        rw [h1.1]
        exact hcur0
      obtain ⟨ps, hps⟩ : ∃ ps, w.getPorts current = some ps := by
        unfold Web.isNode at hcurw
        cases hgp : w.getPorts current with
        | none =>
          rw [hgp] at hcurw
          exact Bool.noConfusion hcurw
        | some ps => exact ⟨ps, rfl⟩
      have hlinkw : w.linkedB current next = true := by
        rw [h1.2]
        exact hlink0
      have hnextmem : next ∈ ps.map Prod.fst := by
        unfold Web.linkedB at hlinkw
        rw [hps] at hlinkw
        exact List.elem_iff.mp hlinkw
      have h1' : sameTop w0 (markStep w current next rest) :=
        sameTop_trans h1 (markStep_sameTop h2.1 hps hnextmem)
      have h2' : WebSorted (markStep w current next rest) :=
        markStep_sorted h2
      have h3' : CacheGood w0 (markStep w current next rest) :=
        markStep_cacheGood h3 hps h2.1 hnext0 hgeo.1
      exact ih (markStep w current next rest)
        (isWalk_tail hwalk (by simp)) hgeo.2 h1' h2' h3'

theorem isPath_reverse {w : Web}
    (hsym : ∀ x y, w.linkedB x y = w.linkedB y x) {a b : Nat} {p : List Nat}
    (h : IsPath w a b p) : IsPath w b a p.reverse := by
  obtain ⟨⟨hne, hmem, hchain⟩, hh, hl⟩ := h
  refine ⟨⟨?_, ?_, ?_⟩, ?_, ?_⟩
  · simpa using hne
  · intro u hu
    exact hmem u (List.mem_reverse.mp hu)
  · rw [List.chain'_reverse]
    refine hchain.imp ?_
    intro x y hxy
    show w.linkedB y x = true
    rw [← hsym x y]
    exact hxy
  · rw [List.head?_reverse]
    exact hl
  · rw [List.getLast?_reverse]
    exact hh

/-- A route that is globally minimal between its endpoints. -/
def GoodPath (w : Web) (p : List Nat) : Prop :=
  ∃ a b, IsPath w a b p ∧ ∀ l, IsPath w a b l → p.length ≤ l.length

theorem goodPath_reverse {w : Web}
    (hsym : ∀ x y, w.linkedB x y = w.linkedB y x) {p : List Nat}
    (h : GoodPath w p) : GoodPath w p.reverse := by
  obtain ⟨a, b, hp, hmin⟩ := h
  refine ⟨b, a, isPath_reverse hsym hp, ?_⟩
  intro l hl
  have h1 := hmin l.reverse (isPath_reverse hsym hl)
  simpa using h1

theorem markBoth_good {w0 w : Web} {p : List Nat}
    (hsym : ∀ x y, w0.linkedB x y = w0.linkedB y x)
    (hp : GoodPath w0 p) (h1 : sameTop w0 w) (h2 : WebSorted w)
    (h3 : CacheGood w0 w) :
    sameTop w0 (w.markBoth p) ∧ WebSorted (w.markBoth p) ∧
      CacheGood w0 (w.markBoth p) := by
  obtain ⟨a, b, hpath, hmin⟩ := hp
  have hgeo : Geo w0 p := geo_of_shortest p a hpath hmin
  obtain ⟨g1, g2, g3⟩ := markPath_good p w hpath.1 hgeo h1 h2 h3
  obtain ⟨a', b', hpath', hmin'⟩ :=
    goodPath_reverse hsym ⟨a, b, hpath, hmin⟩
  have hgeo' : Geo w0 p.reverse := geo_of_shortest p.reverse a' hpath' hmin'
  exact markPath_good p.reverse (w.markPath p) hpath'.1 hgeo' g1 g2 g3

theorem foldl_pres {γ : Type} (P : Web → Prop) (f : Web → γ → Web)
    (hf : ∀ wa x, P wa → P (f wa x)) :
    ∀ (l : List γ) (wa : Web), P wa → P (l.foldl f wa) := by
  intro l
  induction l with
  | nil => intro wa h; exact h
  | cons x xs ih => intro wa h; exact ih (f wa x) (hf wa x h)

theorem findRoute_sound {w : Web} {src dst : Nat} {p : List Nat}
    (hp : w.findRoute src dst = some p) : IsPath w src dst p := by
  unfold Web.findRoute at hp
  by_cases h : w.isNode src = true
  · rw [if_pos h] at hp
    refine crawlLoop_sound w dst src [⟨src, []⟩] [] ?_ p hp
    intro s hsq
    rw [List.mem_singleton.mp hsq]
    exact ⟨isWalk_singleton h, rfl⟩
  · rw [if_neg h] at hp
    exact Option.noConfusion hp

theorem foldl_markBoth_good {w0 : Web}
    (hsym : ∀ x y, w0.linkedB x y = w0.linkedB y x) :
    ∀ (L : List (List Nat)) (w : Web), (∀ p ∈ L, GoodPath w0 p) →
      sameTop w0 w → WebSorted w → CacheGood w0 w →
      sameTop w0 (L.foldl Web.markBoth w) ∧
        WebSorted (L.foldl Web.markBoth w) ∧
        CacheGood w0 (L.foldl Web.markBoth w) := by
  intro L
  induction L with
  | nil => intro w _ h1 h2 h3; exact ⟨h1, h2, h3⟩
  | cons p ps ih =>
    intro w hL h1 h2 h3
    obtain ⟨g1, g2, g3⟩ :=
      markBoth_good hsym (hL p (List.mem_cons_self _ _)) h1 h2 h3
    exact ih (w.markBoth p) (fun q hq => hL q (List.mem_cons_of_mem _ hq))
      g1 g2 g3

theorem applyChunk_good {w0 w : Web} {src : Nat} {group : List Nat}
    (hsym : ∀ x y, w0.linkedB x y = w0.linkedB y x)
    (h1 : sameTop w0 w) (h2 : WebSorted w) (h3 : CacheGood w0 w) :
    sameTop w0 (w.applyChunk src group) ∧
      WebSorted (w.applyChunk src group) ∧
      CacheGood w0 (w.applyChunk src group) := by
  unfold Web.applyChunk
  refine foldl_markBoth_good hsym _ w ?_ h1 h2 h3
  intro p hp
  obtain ⟨dst, _, hfr⟩ := List.mem_filterMap.mp hp
  have hpath : IsPath w src dst p := findRoute_sound hfr
  have hok : CacheOK w := cacheOK_of_good h1 h3
  obtain ⟨p', hp', hpath', hmin'⟩ :=
    findRoute_shortest w src dst hok ⟨p, hpath⟩
  have hpp : p' = p := by
    rw [hfr] at hp'
    exact (Option.some.inj hp').symm
  subst hpp
  refine ⟨src, dst, isPath_of_sameTop (sameTop_symm h1) hpath', ?_⟩
  intro l hl
  exact hmin' l (isPath_of_sameTop h1 hl)

theorem cacheGood_of_empty {w0 w : Web} (h : cachesEmpty w = true) :
    CacheGood w0 w := by
  intro u ps ip v hps hip hv
  exfalso
  have h1 := List.all_eq_true.mp h (u, ps) (btGet_mem hps)
  have h2 := List.all_eq_true.mp h1 ip hip
  rw [List.isEmpty_iff] at h2
  rw [h2] at hv
  exact List.not_mem_nil v hv

/-- `find_all_routes` keeps the topology of the cleared web and only ever
writes exact-distance claims into the routing caches. -/
theorem findAllRoutes_good (w : Web) (par : Nat) (hsort : WebSorted w)
    (hsym : WebSym w) :
    sameTop w.clearRoutes (w.findAllRoutes par) ∧
      WebSorted (w.findAllRoutes par) ∧
      CacheGood w.clearRoutes (w.findAllRoutes par) := by
  have hsym0 : ∀ x y,
      (w.clearRoutes).linkedB x y = (w.clearRoutes).linkedB y x := by
    intro x y
    rw [(clearRoutes_sameTop w).2 x y, (clearRoutes_sameTop w).2 y x]
    exact linkedB_symm hsym x y
  refine foldl_pres
    (fun ww => sameTop w.clearRoutes ww ∧ WebSorted ww ∧
      CacheGood w.clearRoutes ww) _ ?_ _ w.clearRoutes
    ⟨sameTop_refl _, clearRoutes_sorted hsort,
      cacheGood_of_empty (clearRoutes_cachesEmpty w)⟩
  intro wa idx hwa
  exact foldl_pres
    (fun ww => sameTop w.clearRoutes ww ∧ WebSorted ww ∧
      CacheGood w.clearRoutes ww) _
    (fun wb group hwb => applyChunk_good hsym0 hwb.1 hwb.2.1 hwb.2.2)
    _ wa hwa

/-- C2: on a web satisfying the `Web` representation invariants (sorted
`BTreeMap` keys, bidirectional links), after `find_all_routes` has warmed the
routing caches, `find_route` between two connected nodes returns a path of
exactly the same length as a fresh search on the same web with all routing
caches cleared: the cache-assisted fast-forwarding of `route_to` never gives
a longer or shorter route than an unmemoized search.
(`Web::find_all_routes`, `Web::mark_path`, `Node::route_to`,
`src/rust/src/web.rs:121-152,275-293,470-475`.) -/
theorem C2_routing_cache_consistency (w : Web) (par : Nat)
    (hsort : WebSorted w) (hsym : WebSym w) (a b : Nat)
    (hconn : Reaches (w.findAllRoutes par) a b) :
    ∃ p q, (w.findAllRoutes par).findRoute a b = some p ∧
      ((w.findAllRoutes par).clearRoutes).findRoute a b = some q ∧
      p.length = q.length := by
  obtain ⟨hst, hws, hg⟩ := findAllRoutes_good w par hsort hsym
  have hok : CacheOK (w.findAllRoutes par) := cacheOK_of_good hst hg
  obtain ⟨p, hp, hppath, hpmin⟩ := findRoute_shortest _ a b hok hconn
  have hst2 : sameTop (w.findAllRoutes par)
      ((w.findAllRoutes par).clearRoutes) := clearRoutes_sameTop _
  have hok2 : CacheOK ((w.findAllRoutes par).clearRoutes) :=
    cacheOK_of_empty (clearRoutes_cachesEmpty _)
  have hconn2 : Reaches ((w.findAllRoutes par).clearRoutes) a b := by
    obtain ⟨l, hl⟩ := hconn
    exact ⟨l, isPath_of_sameTop hst2 hl⟩
  obtain ⟨q, hq, hqpath, hqmin⟩ := findRoute_shortest _ a b hok2 hconn2
  refine ⟨p, q, hp, hq, ?_⟩
  have h1 : p.length ≤ q.length :=
    hpmin q (isPath_of_sameTop (sameTop_symm hst2) hqpath)
  have h2 : q.length ≤ p.length :=
    hqmin p (isPath_of_sameTop hst2 hppath)
  omega

/-- Witness for C2 on the 3-node path web `x`–`a`–`b`. -/
theorem C2_routing_cache_consistency_witness :
    WebSorted xabWeb ∧ WebSym xabWeb ∧
      Reaches (xabWeb.findAllRoutes 1) 1 3 ∧
      ∃ p q, (xabWeb.findAllRoutes 1).findRoute 1 3 = some p ∧
        ((xabWeb.findAllRoutes 1).clearRoutes).findRoute 1 3 = some q ∧
        p.length = q.length := by
  have hsorted : WebSorted xabWeb := by
    unfold WebSorted SortedFst
    decide
  have hsym : WebSym xabWeb := by
    unfold WebSym
    decide
  have hreach : Reaches (xabWeb.findAllRoutes 1) 1 3 := by
    rw [xab_findAllRoutes]
    exact ⟨[1, 2, 3], ⟨by decide, by decide,
      by simp only [List.chain'_cons, List.chain'_singleton]; decide⟩,
      by decide, by decide⟩
  exact ⟨hsorted, hsym, hreach,
    C2_routing_cache_consistency xabWeb 1 hsorted hsym 1 3 hreach⟩

end AocSpec
